import Mathlib

/-!
# FindPattern: a verification development

Shallow embedding of `src/FindPattern/FindPattern.h`.

* Pointers and `size_t` values are natural numbers below `PTR_RANGE` (an x64
  build); pointer arithmetic is taken modulo `PTR_RANGE`.
* `nullptr` is the pointer value `0`.
* Process memory is a function from addresses to bytes.  The image of a module
  is the address range `[m_ModuleBase, m_ModuleBase + m_ModuleSize)`.
* The scanner is given twice.  `compareLoop`, `scanLoop` and
  `Module.FindPattern` log every dereference and check it against the image:
  a dereference outside of the image is undefined behaviour and ends the run
  with the outcome `Outcome.outOfRange`.  The source has no such check;
  `compareLoopFlat`, `scanLoopFlat` and `Module.FindPatternFlat` are the same
  loops on flat memory, where every address can be read.  The two agree on
  every run that returns without a dereference outside of the image
  (`scanLoopFlat_of_ret`).
* A pattern is a `std::vector< uint16_t >`: a list of naturals below `65536`.
* A pattern text is a `std::string`: a list of `char`s, each identified with
  the Lean character of the same code.  Reading the position one past the last
  character yields the terminating `'\0'`; the cursor stepping beyond that
  position is undefined behaviour.
-/

namespace FindPattern

/-! ## Machine parameters -/

/-- Number of pointer (and `size_t`) values of the target: 64-bit addresses. -/
def PTR_RANGE : Nat := 2 ^ 64

/-- Number of `uint16_t` values. -/
def UINT16_RANGE : Nat := 2 ^ 16

/-- Largest value of `long` (32 bits wide on Windows). -/
def LONG_MAX : Int := 2 ^ 31 - 1

/-- Smallest value of `long` (32 bits wide on Windows). -/
def LONG_MIN : Int := -(2 ^ 31)

/-! ## The module handle and its memory -/

/-- The data members of `class Module`. -/
structure Module where
  m_ModuleName : String
  m_ModuleBase : Nat
  m_ModuleSize : Nat
  deriving DecidableEq

/-- Process memory: the byte stored at each address (taken modulo 256). -/
abbrev Memory := Nat → Nat

/-- How a run of `FindPattern` ends. -/
inductive Outcome where
  /-- The function returned this pointer value (`0` is `nullptr`). -/
  | ret (p : Nat)
  /-- A dereference fell outside the image of the module. -/
  | outOfRange
  /-- The iteration budget of the model was used up. -/
  | outOfFuel
  deriving DecidableEq

/-- A run of `FindPattern`: how it ended and which addresses it dereferenced. -/
structure ScanRun where
  result : Outcome
  reads : List Nat
  deriving DecidableEq

/-- What the constructor and the loader guarantee about a handle: the base is
not `nullptr` (`GetModuleBaseAddress` throws otherwise), the size is a 32-bit
`SizeOfImage` or `0` (`GetModuleSize`), and the image lies inside the address
space, its one-past-the-end address included. -/
def Module.WellFormed (M : Module) : Prop :=
  M.m_ModuleBase ≠ 0 ∧ M.m_ModuleSize < 2 ^ 32 ∧
    M.m_ModuleBase + M.m_ModuleSize < PTR_RANGE

instance (M : Module) : Decidable M.WellFormed := by
  unfold Module.WellFormed; infer_instance

/-- Whether `addr` lies in `[m_ModuleBase, m_ModuleBase + m_ModuleSize)`. -/
def Module.inRange (M : Module) (addr : Nat) : Bool :=
  decide (M.m_ModuleBase ≤ addr) && decide (addr < M.m_ModuleBase + M.m_ModuleSize)

/-- A bounds-checked read of one `uint8_t`: `none` is the out-of-range branch. -/
def Module.readByte (M : Module) (mem : Memory) (addr : Nat) : Option Nat :=
  if M.inRange addr then some (mem addr % 256) else none

/-- The byte at offset `k` of the image. -/
def Module.byte (M : Module) (mem : Memory) (k : Nat) : Nat :=
  mem (M.m_ModuleBase + k) % 256

/-! ## `Module::FindPattern`, vector overload (lines 49-63) -/

/-- The lambda of lines 53-61, started at counter `i` with the tokens
`Pattern_[i], Pattern_[i+1], ...` still to compare.  The result is `some true`
or `some false` for `return true` / `return false` and `none` when `Data[ i ]`
is outside the image, a check that the source does not make (`compareLoopFlat`
is the lambda without it); the second component logs the addresses
dereferenced.  The counter `i` is `unsigned`; it cannot wrap before a read leaves an image of
fewer than `2 ^ 32` bytes. -/
def compareLoop (M : Module) (mem : Memory) (Data : Nat) :
    Nat → List Nat → Option Bool × List Nat
  | _, [] => (some true, [])
  | i, tok :: rest =>
    let addr := (Data + i) % PTR_RANGE
    match M.readByte mem addr with
    | none => (none, [addr])
    | some b =>
      if b ≠ tok then
        if tok ≠ 256 then (some false, [addr])
        else
          let r := compareLoop M mem Data (i + 1) rest
          (r.1, addr :: r.2)
      else
        let r := compareLoop M mem Data (i + 1) rest
        (r.1, addr :: r.2)

/-- The pointer `( m_ModuleBase + m_ModuleSize ) - Pattern_.size( )` of the
loop test of line 52, computed like the machine does: modulo `PTR_RANGE`. -/
def scanLimit (M : Module) (n : Nat) : Nat :=
  ((M.m_ModuleBase + M.m_ModuleSize) % PTR_RANGE + (PTR_RANGE - n % PTR_RANGE)) % PTR_RANGE

/-- The `for` loop of line 52 with `Data` as its cursor; `fuel` bounds the
number of times the loop test is evaluated. -/
def scanLoop (M : Module) (mem : Memory) (Pattern_ : List Nat) : Nat → Nat → ScanRun
  | 0, _ => ⟨Outcome.outOfFuel, []⟩
  | fuel + 1, Data =>
    if Data ≤ scanLimit M Pattern_.length then
      match compareLoop M mem Data 0 Pattern_ with
      | (some true, rs) => ⟨Outcome.ret Data, rs⟩
      | (some false, rs) =>
        let r := scanLoop M mem Pattern_ fuel ((Data + 1) % PTR_RANGE)
        ⟨r.result, rs ++ r.reads⟩
      | (none, rs) => ⟨Outcome.outOfRange, rs⟩
    else ⟨Outcome.ret 0, []⟩

/-- The method `Module::FindPattern( const std::vector< uint16_t >& )`.  The
loop test is evaluated at most `m_ModuleSize + 2` times before the function
returns or a read leaves the image. -/
def Module.FindPattern (M : Module) (mem : Memory) (Pattern_ : List Nat) : ScanRun :=
  scanLoop M mem Pattern_ (M.m_ModuleSize + 2) M.m_ModuleBase

/-- The match predicate in the words of the specification, at offset `k` of
the image: every token equals the byte under it or is the wildcard `256`. -/
def MatchesAt (M : Module) (mem : Memory) (P : List Nat) (k : Nat) : Prop :=
  ∀ i, i < P.length → M.byte mem (k + i) = P.getD i 0 ∨ P.getD i 0 = 256

instance (M : Module) (mem : Memory) (P : List Nat) (k : Nat) :
    Decidable (MatchesAt M mem P k) := by
  unfold MatchesAt; infer_instance

/-! ## `Module::FindPattern`, vector overload, on flat memory -/

/-- The lambda of lines 53-61 as the machine runs it, on flat memory: `Data[ i ]`
is read at whatever address `Data + i` is, inside of the image or not, as the
source has no bounds check.  The counter `i` is `unsigned`; it does not wrap
for a pattern of fewer than `2 ^ 32` tokens. -/
def compareLoopFlat (mem : Memory) (Data : Nat) : Nat → List Nat → Bool
  | _, [] => true
  | i, tok :: rest =>
    let b := mem ((Data + i) % PTR_RANGE) % 256
    if b ≠ tok then
      if tok ≠ 256 then false
      else compareLoopFlat mem Data (i + 1) rest
    else compareLoopFlat mem Data (i + 1) rest

/-- The `for` loop of line 52 on flat memory; `fuel` bounds the number of
times the loop test is evaluated, and `none` is the budget used up. -/
def scanLoopFlat (M : Module) (mem : Memory) (Pattern_ : List Nat) : Nat → Nat → Option Nat
  | 0, _ => none
  | fuel + 1, Data =>
    if Data ≤ scanLimit M Pattern_.length then
      if compareLoopFlat mem Data 0 Pattern_ then some Data
      else scanLoopFlat M mem Pattern_ fuel ((Data + 1) % PTR_RANGE)
    else some 0

/-- The method `Module::FindPattern( const std::vector< uint16_t >& )` on flat
memory: the pointer returned (`0` is `nullptr`) within `fuel` evaluations of
the loop test. -/
def Module.FindPatternFlat (M : Module) (mem : Memory) (Pattern_ : List Nat)
    (fuel : Nat) : Option Nat :=
  scanLoopFlat M mem Pattern_ fuel M.m_ModuleBase

/-! ## The C library function `strtol`, base 16 -/

/-- The classification `isspace` of the "C" locale: space, `\t`, `\n`, `\v`,
`\f`, `\r`. -/
def isspace (c : Char) : Bool :=
  decide (c.toNat = 32) || (decide (9 ≤ c.toNat) && decide (c.toNat ≤ 13))

/-- The value of `c` as a base-16 digit (`0-9`, `A-F`, `a-f`), if it is one. -/
def hexDigitVal (c : Char) : Option Nat :=
  if 48 ≤ c.toNat ∧ c.toNat ≤ 57 then some (c.toNat - 48)
  else if 65 ≤ c.toNat ∧ c.toNat ≤ 70 then some (c.toNat - 55)
  else if 97 ≤ c.toNat ∧ c.toNat ≤ 102 then some (c.toNat - 87)
  else none

/-- Leading white space is skipped by `strtol`. -/
def strtolSkipSpace : List Char → List Char
  | [] => []
  | c :: rest => if isspace c then strtolSkipSpace rest else c :: rest

/-- The digits of `strtol`: the longest run of base-16 digits is accumulated
onto `acc`; the first other character (or the terminator) ends it. -/
def strtolDigits : List Char → Nat → Nat
  | [], acc => acc
  | c :: rest, acc =>
    match hexDigitVal c with
    | some v => strtolDigits rest (acc * 16 + v)
    | none => acc

/-- The optional `0x` / `0X` that may precede the digits in base 16. -/
def strtolSkipRadixMark : List Char → List Char
  | c :: x :: rest => if c = '0' ∧ (x = 'x' ∨ x = 'X') then rest else c :: x :: rest
  | s => s

/-- The C library function `strtol( s, nullptr, 16 )`, which is not code of
this repository, modelled after ISO C 7.22.1.4 on the characters of `s` up to
its terminator: white space, an optional sign, an optional `0x`, the longest
run of digits; `0` when there is no digit; a value that does not fit a `long`
is replaced by `LONG_MAX` or `LONG_MIN`. -/
def strtol (s : List Char) : Int :=
  let s1 := strtolSkipSpace s
  let neg : Bool := decide (s1.head? = some '-')
  let s2 := if s1.head? = some '-' ∨ s1.head? = some '+' then s1.tail else s1
  let mag : Int := (strtolDigits (strtolSkipRadixMark s2) 0 : Nat)
  if neg then (if -mag < LONG_MIN then LONG_MIN else -mag)
  else (if LONG_MAX < mag then LONG_MAX else mag)

/-- The conversion of a `long` to `uint16_t` done by `push_back` (line 93). -/
def toUInt16 (v : Int) : Nat := (v % (UINT16_RANGE : Int)).toNat

/-! ## `Module::ConvertIDAPatternToByteVector` (lines 76-99) -/

/-- A run of the parser loop. -/
structure ParseRun where
  /-- The tokens pushed, in order. -/
  ByteBuffer : List Nat
  /-- The positions dereferenced through the cursor `i`, in order. -/
  reads : List Nat
  /-- The last value of the cursor `i`, as a distance from `cbegin( )`. -/
  cursor : Nat
  /-- Whether the loop ended through its test `i != cend( )`; `false` when
  the cursor stepped beyond `cend( )`, which is undefined behaviour. -/
  finished : Bool
  deriving DecidableEq

/-- What a run of the parser loop returns (line 98): `ByteBuffer` when the
loop ended through its test, nothing defined otherwise. -/
def ParseRun.returned (r : ParseRun) : Option (List Nat) :=
  if r.finished then some r.ByteBuffer else none

/-- The loop of lines 80-96 with the cursor at distance `i` from `cbegin( )`
and the characters from the cursor to `cend( )` as second argument. -/
def parseLoop : Nat → List Char → ParseRun
  | i, [] => ⟨[], [], i, true⟩
  | i, [c] =>
    if c = ' ' then
      let r := parseLoop (i + 1) []
      { r with reads := i :: r.reads }
    else if c = '?' then
      -- `*( i + 1 )` is the terminator, which is not `?`
      let r := parseLoop (i + 1) []
      { r with ByteBuffer := 256 :: r.ByteBuffer, reads := i :: (i + 1) :: r.reads }
    else
      -- `++i` twice from the last character: the cursor passes `cend( )`
      ⟨[toUInt16 (strtol [c])], [i], i + 2, false⟩
  | i, c :: d :: rest =>
    if c = ' ' then
      let r := parseLoop (i + 1) (d :: rest)
      { r with reads := i :: r.reads }
    else if c = '?' then
      if d = '?' then
        let r := parseLoop (i + 2) rest
        { r with ByteBuffer := 256 :: r.ByteBuffer, reads := i :: (i + 1) :: r.reads }
      else
        let r := parseLoop (i + 1) (d :: rest)
        { r with ByteBuffer := 256 :: r.ByteBuffer, reads := i :: (i + 1) :: r.reads }
    else
      let r := parseLoop (i + 2) rest
      { r with ByteBuffer := toUInt16 (strtol (c :: d :: rest)) :: r.ByteBuffer,
               reads := i :: r.reads }

/-- The function `ConvertIDAPatternToByteVector`: the vector returned, or
`none` when the cursor steps beyond the end of the text. -/
def ConvertIDAPatternToByteVector (Pattern_ : String) : Option (List Nat) :=
  (parseLoop 0 Pattern_.toList).returned

/-! ## `Module::FindPattern`, string overload (lines 65-69) -/

/-- The method `Module::FindPattern( const std::string& )`: `none` when the
conversion of the text has no defined result. -/
def Module.FindPattern_string (M : Module) (mem : Memory) (Pattern_ : String) :
    Option ScanRun :=
  (ConvertIDAPatternToByteVector Pattern_).map (M.FindPattern mem)

/-- Memory holding the bytes `bs` from address `base` on and `0` elsewhere. -/
def memOfList (base : Nat) (bs : List Nat) : Memory :=
  fun a => if base ≤ a then bs.getD (a - base) 0 else 0

/-! ## Signature texts made of elements -/

/-- An element of a signature text: one or two base-16 digits, `?` or `??`. -/
inductive Element where
  | hex1 (d : Char)
  | hex2 (d1 d2 : Char)
  | wild1
  | wild2
  deriving DecidableEq

/-- Whether `c` is a base-16 digit. -/
def isHexDigit (c : Char) : Bool := (hexDigitVal c).isSome

/-- The digits of a hex element are base-16 digits. -/
def Element.WellFormed : Element → Prop
  | Element.hex1 d => isHexDigit d = true
  | Element.hex2 d1 d2 => isHexDigit d1 = true ∧ isHexDigit d2 = true
  | Element.wild1 => True
  | Element.wild2 => True

instance (e : Element) : Decidable e.WellFormed := by
  cases e <;> unfold Element.WellFormed <;> infer_instance

/-- The characters an element is written with. -/
def Element.chars : Element → List Char
  | Element.hex1 d => [d]
  | Element.hex2 d1 d2 => [d1, d2]
  | Element.wild1 => ['?']
  | Element.wild2 => ['?', '?']

/-- The token an element stands for according to the specification: the
base-16 value of a hex element, the wildcard `256` for `?` and `??`. -/
def Element.token : Element → Nat
  | Element.hex1 d => (hexDigitVal d).getD 0
  | Element.hex2 d1 d2 => 16 * (hexDigitVal d1).getD 0 + (hexDigitVal d2).getD 0
  | Element.wild1 => 256
  | Element.wild2 => 256

/-- Whether an element is a hex element of a single digit. -/
def Element.isHex1 : Element → Bool
  | Element.hex1 _ => true
  | _ => false

/-- Whether an element is a hex element of two digits or a wildcard. -/
def Element.isTwoDigitOrWild : Element → Bool
  | Element.hex1 _ => false
  | _ => true

/-- The characters of a text made of the elements `es` separated by one
space each. -/
def render : List Element → List Char
  | [] => []
  | [e] => e.chars
  | e :: e2 :: es => e.chars ++ ' ' :: render (e2 :: es)

/-- The signature text made of the elements `es`. -/
def signatureText (es : List Element) : String := String.mk (render es)

/-- Whether the last element of `es` is a hex element of a single digit. -/
def endsInHex1 : List Element → Bool
  | [] => false
  | [e] => e.isHex1
  | _ :: e2 :: es => endsInHex1 (e2 :: es)

/-- The upper-case form of the letters `a` to `f`; every other character is
left as it is. -/
def upperHex (c : Char) : Char :=
  if c = 'a' then 'A' else if c = 'b' then 'B' else if c = 'c' then 'C'
  else if c = 'd' then 'D' else if c = 'e' then 'E' else if c = 'f' then 'F' else c

/-- Whether an element is a wildcard, `?` or `??`. -/
def Element.isWild : Element → Bool
  | Element.wild1 => true
  | Element.wild2 => true
  | _ => false

/-- Whether no two neighbours in `es` are both hex elements or both
wildcards. -/
def alternates : List Element → Bool
  | [] => true
  | [_] => true
  | e :: e2 :: es => (e.isWild != e2.isWild) && alternates (e2 :: es)

/-- The text `s` with all spaces removed. -/
def removeSpaces (s : List Char) : List Char := s.filter (fun c => c != ' ')

/-! ## The module resolver and the constructor (lines 7-44) -/

/-- The constant `IMAGE_NT_SIGNATURE` of `Windows.h`, which is not part of
this repository: the bytes `PE\0\0` read as a little-endian `DWORD`. -/
def IMAGE_NT_SIGNATURE : Nat := 0x00004550

/-- The two fields of `IMAGE_NT_HEADERS` that `GetModuleSize` reads. -/
structure NTHeaders where
  Signature : Nat
  SizeOfImage : Nat
  deriving DecidableEq

/-- The function `GetModuleSize` (lines 22-27).  The walk from the base
address over `e_lfanew` to the NT headers is the argument `headers`: the
fields found for the image that starts at a given address. -/
def GetModuleSize (headers : Nat → NTHeaders) (BaseAddress_ : Nat) : Nat :=
  let NTHeader := headers BaseAddress_
  if NTHeader.Signature = IMAGE_NT_SIGNATURE then NTHeader.SizeOfImage else 0

/-- The function `GetModuleBaseAddress` (lines 10-18).  The loader call
`GetModuleHandle` of the Windows API is an argument: the handle it returns for
a module name, `0` being `nullptr`.  `Except.error` is the `runtime_error`
thrown. -/
def GetModuleBaseAddress (GetModuleHandle : String → Nat) (ModuleName_ : String) :
    Except String Nat :=
  let ModuleBase := GetModuleHandle ModuleName_
  if ModuleBase = 0 then
    Except.error "ModuleBase is nullptr, couldn\x27t find specified module"
  else Except.ok ModuleBase

/-- The constructor `Module::Module` (lines 39-44): the members are set in
the order of the member initialiser list, and an exception thrown by
`GetModuleBaseAddress` leaves no handle behind. -/
def Module.new (GetModuleHandle : String → Nat) (headers : Nat → NTHeaders)
    (ModuleName_ : String) : Except String Module :=
  match GetModuleBaseAddress GetModuleHandle ModuleName_ with
  | Except.error e => Except.error e
  | Except.ok ModuleBase =>
    Except.ok ⟨ModuleName_, ModuleBase, GetModuleSize headers ModuleBase⟩

/-! ## Auxiliary predicates -/

/-- What ends a run of digits in a text made of elements: the end of the text
or a space. -/
def EndsRun (s : List Char) : Prop := s = [] ∨ ∃ t, s = ' ' :: t

/-- The characters the parser and `strtol` test for are not letters `a` to
`f` and not their upper-case forms. -/
def IsMark (k : Char) : Prop :=
  k = ' ' ∨ k = '?' ∨ k = '-' ∨ k = '+' ∨ k = '0' ∨ k = 'x' ∨ k = 'X'

/-- An element that is well-formed and, when it is a hex element, has two
digits. -/
def IsPlainElement (e : Element) : Prop := e.WellFormed ∧ e.isTwoDigitOrWild = true

instance (e : Element) : Decidable (IsPlainElement e) := by
  unfold IsPlainElement; infer_instance

/-! ## Concrete inputs -/

/-- A handle on a five-byte image at `0x400000`. -/
def smallModule : Module := ⟨"small.dll", 0x400000, 5⟩

/-- Memory whose image bytes are `07 01 01 01 02`: the pattern `01 01` occurs
at the overlapping offsets `1` and `2`. -/
def smallMemory : Memory := memOfList 0x400000 [7, 1, 1, 1, 2]

/-- A handle on a 4096-byte image at `0x10000`, the lowest address at which
Windows maps an image. -/
def lowModule : Module := ⟨"low.exe", 0x10000, 0x1000⟩

/-- Memory that is zero everywhere. -/
def zeroMemory : Memory := fun _ => 0

/-- A pattern of `0x11001` wildcards: one token more than there are addresses
below the end of the image of `lowModule`. -/
def longPattern : List Nat := List.replicate 0x11001 256

/-- A handle on the nine-byte image of the scenario of the specification. -/
def scenarioModule : Module := ⟨"scenario.dll", 0x400000, 9⟩

/-- Memory holding the buffer `FC E8 11 22 33 44 8B 3D 00` of the scenario. -/
def scenarioMemory : Memory :=
  memOfList 0x400000 [0xFC, 0xE8, 0x11, 0x22, 0x33, 0x44, 0x8B, 0x3D, 0x00]

/-- The elements of `fc e8`. -/
def sigLower : List Element := [Element.hex2 'f' 'c', Element.hex2 'e' '8']

/-- A loader that knows the one module `game.exe`, loaded at `0x10000`. -/
def demoLoader : String → Nat := fun name => if name = "game.exe" then 0x10000 else 0

/-- Headers without the signature `PE\0\0`, whatever the address. -/
def erasedHeaders : Nat → NTHeaders := fun _ => ⟨0, 0x1000⟩

/-- A pattern of `0x11001` tokens `257`, none of which is a byte value or the
wildcard. -/
def largeTokenPattern : List Nat := List.replicate 0x11001 257

/-- The handle that the constructor makes of `game.exe` with `demoLoader` and
`erasedHeaders`: an image of size `0` at `0x10000`. -/
def erasedModule : Module := ⟨"game.exe", 0x10000, 0⟩

/-- The elements of `FC ? E8 ?? 3D`. -/
def sigAlternating : List Element :=
  [Element.hex2 'F' 'C', Element.wild1, Element.hex2 'E' '8', Element.wild2,
    Element.hex2 '3' 'D']

/-! ## Facts about the lambda -/

theorem PTR_RANGE_eq : PTR_RANGE = 18446744073709551616 := by
  unfold PTR_RANGE; norm_num

theorem readByte_of_inRange (M : Module) (mem : Memory) (a : Nat)
    (h1 : M.m_ModuleBase ≤ a) (h2 : a < M.m_ModuleBase + M.m_ModuleSize) :
    M.readByte mem a = some (mem a % 256) := by
  simp [Module.readByte, Module.inRange, h1, h2]

theorem readByte_eq_some (M : Module) (mem : Memory) (a b : Nat)
    (h : M.readByte mem a = some b) :
    M.m_ModuleBase ≤ a ∧ a < M.m_ModuleBase + M.m_ModuleSize ∧ b = mem a % 256 := by
  unfold Module.readByte Module.inRange at h
  split at h
  · rename_i hin
    simp only [Bool.and_eq_true, decide_eq_true_eq] at hin
    simp only [Option.some.injEq] at h
    exact ⟨hin.1, hin.2, h.symm⟩
  · simp at h

/-- Inside the image the lambda decides the match predicate. -/
theorem compareLoop_of_inRange (M : Module) (mem : Memory) (Data : Nat)
    (hb : M.m_ModuleBase ≤ Data) (hR : M.m_ModuleBase + M.m_ModuleSize < PTR_RANGE) :
    ∀ (toks : List Nat) (i : Nat),
      Data + i + toks.length ≤ M.m_ModuleBase + M.m_ModuleSize →
      (compareLoop M mem Data i toks).1 =
        some (decide (∀ j, j < toks.length →
          mem (Data + i + j) % 256 = toks.getD j 0 ∨ toks.getD j 0 = 256)) := by
  intro toks
  induction toks with
  | nil => intro i _; simp [compareLoop]
  | cons tok rest ih =>
    intro i hlen
    simp only [List.length_cons] at hlen
    have hmod : (Data + i) % PTR_RANGE = Data + i := Nat.mod_eq_of_lt (by omega)
    have hrd : M.readByte mem (Data + i) = some (mem (Data + i) % 256) :=
      readByte_of_inRange M mem _ (by omega) (by omega)
    have hrec := ih (i + 1) (by omega)
    have hsplit : (∀ j, j < (tok :: rest).length →
          mem (Data + i + j) % 256 = (tok :: rest).getD j 0 ∨ (tok :: rest).getD j 0 = 256) ↔
        ((mem (Data + i) % 256 = tok ∨ tok = 256) ∧
          ∀ j, j < rest.length →
            mem (Data + (i + 1) + j) % 256 = rest.getD j 0 ∨ rest.getD j 0 = 256) := by
      constructor
      · intro h
        refine ⟨by simpa using h 0 (by simp), ?_⟩
        intro j hj
        have := h (j + 1) (by simpa using hj)
        simpa [Nat.add_assoc, Nat.add_comm 1 j] using this
      · rintro ⟨h0, hr⟩ j hj
        cases j with
        | zero => simpa using h0
        | succ j =>
          have := hr j (by simpa using hj)
          simpa [Nat.add_assoc, Nat.add_comm 1 j] using this
    rw [compareLoop]
    simp only [hmod, hrd]
    split_ifs with h1 h2
    · symm
      simp only [Option.some.injEq, decide_eq_false_iff_not]
      rw [hsplit]
      simp [h1, h2]
    · simp only [hrec, Option.some.injEq, decide_eq_decide]
      rw [hsplit]
      have h2 : tok = 256 := by simpa using h2
      simp [h2]
    · simp only [hrec, Option.some.injEq, decide_eq_decide]
      rw [hsplit]
      have h1 : mem (Data + i) % 256 = tok := by simpa using h1
      simp [h1]

/-- At a start offset whose bytes all lie in the image, the lambda returns
whether the pattern matches there. -/
theorem compareLoop_at_offset (M : Module) (mem : Memory) (P : List Nat) (j : Nat)
    (hR : M.m_ModuleBase + M.m_ModuleSize < PTR_RANGE)
    (hj : j + P.length ≤ M.m_ModuleSize) :
    (compareLoop M mem (M.m_ModuleBase + j) 0 P).1 = some (decide (MatchesAt M mem P j)) := by
  rw [compareLoop_of_inRange M mem (M.m_ModuleBase + j) (by omega) hR P 0 (by omega)]
  simp only [Option.some.injEq, decide_eq_decide, MatchesAt, Module.byte, Nat.add_zero,
    Nat.add_assoc]

/-- A lambda that returns `true` has read the whole pattern inside the image. -/
theorem compareLoop_true (M : Module) (mem : Memory) (Data : Nat)
    (hR : M.m_ModuleBase + M.m_ModuleSize < PTR_RANGE) :
    ∀ (toks : List Nat) (i : Nat), Data + i ≤ M.m_ModuleBase + M.m_ModuleSize →
      (compareLoop M mem Data i toks).1 = some true →
      Data + i + toks.length ≤ M.m_ModuleBase + M.m_ModuleSize ∧
        ∀ j, j < toks.length →
          mem (Data + i + j) % 256 = toks.getD j 0 ∨ toks.getD j 0 = 256 := by
  intro toks
  induction toks with
  | nil => intro i hi _; simpa using hi
  | cons tok rest ih =>
    intro i hi hres
    have hmod : (Data + i) % PTR_RANGE = Data + i := Nat.mod_eq_of_lt (by omega)
    rw [compareLoop] at hres
    simp only [hmod] at hres
    cases hrd : M.readByte mem (Data + i) with
    | none => simp [hrd] at hres
    | some b =>
      obtain ⟨_, hlt, hb⟩ := readByte_eq_some M mem _ _ hrd
      simp only [hrd] at hres
      have key : (compareLoop M mem Data (i + 1) rest).1 = some true ∧ (b = tok ∨ tok = 256) := by
        split_ifs at hres with h1 h2
        · simp at hres
        · exact ⟨hres, Or.inr (by simpa using h2)⟩
        · exact ⟨hres, Or.inl (by simpa using h1)⟩
      obtain ⟨hlen, hall⟩ := ih (i + 1) (by omega) key.1
      refine ⟨by simp only [List.length_cons]; omega, ?_⟩
      intro j hj
      cases j with
      | zero => simpa [← hb] using key.2
      | succ j =>
        have := hall j (by simpa using hj)
        simpa [Nat.add_assoc, Nat.add_comm 1 j] using this

/-- A lambda that returns `false` has read at least its first byte inside
the image. -/
theorem compareLoop_false (M : Module) (mem : Memory) (Data : Nat)
    (hR : M.m_ModuleBase + M.m_ModuleSize < PTR_RANGE) (toks : List Nat)
    (hD : Data ≤ M.m_ModuleBase + M.m_ModuleSize)
    (hres : (compareLoop M mem Data 0 toks).1 = some false) :
    Data < M.m_ModuleBase + M.m_ModuleSize := by
  cases toks with
  | nil => simp [compareLoop] at hres
  | cons tok rest =>
    have hmod : (Data + 0) % PTR_RANGE = Data := Nat.mod_eq_of_lt (by omega)
    rw [compareLoop] at hres
    simp only [hmod] at hres
    cases hrd : M.readByte mem Data with
    | none => simp [hrd] at hres
    | some b => exact (readByte_eq_some M mem _ _ hrd).2.1

/-! ## Facts about the scan loop -/

/-- Without wrap-around the bound of the loop test is the last start position. -/
theorem scanLimit_eq (M : Module) (n : Nat)
    (hR : M.m_ModuleBase + M.m_ModuleSize < PTR_RANGE)
    (hn : n ≤ M.m_ModuleBase + M.m_ModuleSize) :
    scanLimit M n = M.m_ModuleBase + M.m_ModuleSize - n := by
  unfold scanLimit
  rw [PTR_RANGE_eq] at *
  omega

/-- A pattern longer than the distance from address `0` to the end of the
image makes the bound of the loop test wrap around. -/
theorem scanLimit_wrap (M : Module) (n : Nat)
    (hR : M.m_ModuleBase + M.m_ModuleSize < PTR_RANGE)
    (hn : M.m_ModuleBase + M.m_ModuleSize < n) (hn2 : n < PTR_RANGE) :
    scanLimit M n = PTR_RANGE + (M.m_ModuleBase + M.m_ModuleSize) - n := by
  unfold scanLimit
  rw [PTR_RANGE_eq] at *
  omega

theorem scanLoop_exit (M : Module) (mem : Memory) (P : List Nat) (fuel Data : Nat)
    (h : ¬ Data ≤ scanLimit M P.length) :
    scanLoop M mem P (fuel + 1) Data = ⟨Outcome.ret 0, []⟩ := by
  rw [scanLoop]; simp [h]

theorem scanLoop_found (M : Module) (mem : Memory) (P : List Nat) (fuel Data : Nat)
    (h : Data ≤ scanLimit M P.length)
    (hc : (compareLoop M mem Data 0 P).1 = some true) :
    (scanLoop M mem P (fuel + 1) Data).result = Outcome.ret Data := by
  rw [scanLoop]
  simp only [h, if_true]
  cases hcl : compareLoop M mem Data 0 P with
  | mk r rs =>
    simp only [hcl] at hc
    subst hc
    rfl

theorem scanLoop_next (M : Module) (mem : Memory) (P : List Nat) (fuel Data : Nat)
    (h : Data ≤ scanLimit M P.length)
    (hc : (compareLoop M mem Data 0 P).1 = some false) :
    (scanLoop M mem P (fuel + 1) Data).result =
      (scanLoop M mem P fuel ((Data + 1) % PTR_RANGE)).result := by
  rw [scanLoop]
  simp only [h, if_true]
  cases hcl : compareLoop M mem Data 0 P with
  | mk r rs =>
    simp only [hcl] at hc
    subst hc
    rfl

theorem scanLoop_fault (M : Module) (mem : Memory) (P : List Nat) (fuel Data : Nat)
    (h : Data ≤ scanLimit M P.length)
    (hc : (compareLoop M mem Data 0 P).1 = none) :
    (scanLoop M mem P (fuel + 1) Data).result = Outcome.outOfRange := by
  rw [scanLoop]
  simp only [h, if_true]
  cases hcl : compareLoop M mem Data 0 P with
  | mk r rs =>
    simp only [hcl] at hc
    subst hc
    rfl

/-- The loop started at offset `j` returns the first offset from `j` on at
which the pattern matches. -/
theorem scanLoop_first (M : Module) (mem : Memory) (P : List Nat) (k : Nat)
    (hR : M.m_ModuleBase + M.m_ModuleSize < PTR_RANGE)
    (hk : k + P.length ≤ M.m_ModuleSize) (hm : MatchesAt M mem P k) :
    ∀ (n j fuel : Nat), j + n = k → n < fuel →
      (∀ j2, j ≤ j2 → j2 < k → ¬ MatchesAt M mem P j2) →
      (scanLoop M mem P fuel (M.m_ModuleBase + j)).result =
        Outcome.ret (M.m_ModuleBase + k) := by
  have hlim : scanLimit M P.length = M.m_ModuleBase + M.m_ModuleSize - P.length :=
    scanLimit_eq M _ hR (by omega)
  intro n
  induction n with
  | zero =>
    intro j fuel hj hf _
    obtain ⟨fuel, rfl⟩ : ∃ f, fuel = f + 1 := ⟨fuel - 1, by omega⟩
    have hjk : j = k := by omega
    subst hjk
    apply scanLoop_found
    · rw [hlim]; omega
    · rw [compareLoop_at_offset M mem P j hR hk]; simp [hm]
  | succ n ih =>
    intro j fuel hj hf hno
    obtain ⟨fuel, rfl⟩ : ∃ f, fuel = f + 1 := ⟨fuel - 1, by omega⟩
    have hnm : ¬ MatchesAt M mem P j := hno j (Nat.le_refl _) (by omega)
    rw [scanLoop_next]
    · have hmod : (M.m_ModuleBase + j + 1) % PTR_RANGE = M.m_ModuleBase + (j + 1) :=
        Nat.mod_eq_of_lt (by omega)
      rw [hmod]
      exact ih (j + 1) fuel (by omega) (by omega) (fun j2 h1 h2 => hno j2 (by omega) h2)
    · rw [hlim]; omega
    · rw [compareLoop_at_offset M mem P j hR (by omega)]; simp [hnm]

/-- When the pattern matches at no start position from `j` on, the loop
started at offset `j` returns `nullptr`. -/
theorem scanLoop_notFound (M : Module) (mem : Memory) (P : List Nat)
    (hR : M.m_ModuleBase + M.m_ModuleSize < PTR_RANGE)
    (hP : P.length ≤ M.m_ModuleBase + M.m_ModuleSize) :
    ∀ (n j fuel : Nat), M.m_ModuleSize + 1 ≤ j + P.length + n → n < fuel →
      (∀ j2, j ≤ j2 → j2 + P.length ≤ M.m_ModuleSize → ¬ MatchesAt M mem P j2) →
      (scanLoop M mem P fuel (M.m_ModuleBase + j)).result = Outcome.ret 0 := by
  have hlim : scanLimit M P.length = M.m_ModuleBase + M.m_ModuleSize - P.length :=
    scanLimit_eq M _ hR hP
  intro n
  induction n with
  | zero =>
    intro j fuel hj hf _
    obtain ⟨fuel, rfl⟩ : ∃ f, fuel = f + 1 := ⟨fuel - 1, by omega⟩
    rw [scanLoop_exit]
    rw [hlim]; omega
  | succ n ih =>
    intro j fuel hj hf hno
    obtain ⟨fuel, rfl⟩ : ∃ f, fuel = f + 1 := ⟨fuel - 1, by omega⟩
    by_cases hin : j + P.length ≤ M.m_ModuleSize
    · have hpos : 0 < P.length := by
        rcases Nat.eq_zero_or_pos P.length with h0 | h0
        · exact absurd (fun i hi => by omega) (hno j (Nat.le_refl _) hin)
        · exact h0
      rw [scanLoop_next]
      · have hmod : (M.m_ModuleBase + j + 1) % PTR_RANGE = M.m_ModuleBase + (j + 1) :=
          Nat.mod_eq_of_lt (by omega)
        rw [hmod]
        exact ih (j + 1) fuel (by omega) (by omega) (fun j2 h1 h2 => hno j2 (by omega) h2)
      · rw [hlim]; omega
      · rw [compareLoop_at_offset M mem P j hR hin]; simp [hno j (Nat.le_refl _) hin]
    · rw [scanLoop_exit]
      rw [hlim]; omega

/-- Whatever non-null pointer the loop returns is a start position inside the
image at which the pattern matches. -/
theorem scanLoop_sound (M : Module) (mem : Memory) (P : List Nat)
    (hR : M.m_ModuleBase + M.m_ModuleSize < PTR_RANGE) :
    ∀ (fuel j a : Nat), j ≤ M.m_ModuleSize →
      (scanLoop M mem P fuel (M.m_ModuleBase + j)).result = Outcome.ret a → a ≠ 0 →
      ∃ k, a = M.m_ModuleBase + k ∧ j ≤ k ∧ k + P.length ≤ M.m_ModuleSize ∧
        MatchesAt M mem P k := by
  intro fuel
  induction fuel with
  | zero => intro j a _ h _; simp [scanLoop] at h
  | succ fuel ih =>
    intro j a hj hres ha
    by_cases htest : M.m_ModuleBase + j ≤ scanLimit M P.length
    · cases hc : (compareLoop M mem (M.m_ModuleBase + j) 0 P).1 with
      | none => rw [scanLoop_fault M mem P fuel _ htest hc] at hres; simp at hres
      | some b =>
        cases b with
        | true =>
          rw [scanLoop_found M mem P fuel _ htest hc] at hres
          simp only [Outcome.ret.injEq] at hres
          obtain ⟨hlen, hall⟩ := compareLoop_true M mem _ hR P 0 (by omega) hc
          refine ⟨j, hres.symm, Nat.le_refl _, by omega, ?_⟩
          intro i hi
          have := hall i hi
          simpa [Module.byte, Nat.add_assoc] using this
        | false =>
          rw [scanLoop_next M mem P fuel _ htest hc] at hres
          have hlt := compareLoop_false M mem _ hR P (by omega) hc
          have hmod : (M.m_ModuleBase + j + 1) % PTR_RANGE = M.m_ModuleBase + (j + 1) :=
            Nat.mod_eq_of_lt (by omega)
          rw [hmod] at hres
          obtain ⟨k, hk1, hk2, hk3, hk4⟩ := ih (j + 1) a (by omega) hres ha
          exact ⟨k, hk1, by omega, hk3, hk4⟩
    · rw [scanLoop_exit M mem P fuel _ htest] at hres
      simp only [Outcome.ret.injEq] at hres
      exact absurd hres.symm ha

/-- The first comparison of the lambda dereferences `Data + i`. -/
theorem compareLoop_reads_head (M : Module) (mem : Memory) (Data i tok : Nat)
    (rest : List Nat) :
    ∃ tl, (compareLoop M mem Data i (tok :: rest)).2 = ((Data + i) % PTR_RANGE) :: tl := by
  rw [compareLoop]
  cases hrd : M.readByte mem ((Data + i) % PTR_RANGE) with
  | none => exact ⟨[], by simp⟩
  | some b =>
    simp only []
    split_ifs
    · exact ⟨[], rfl⟩
    · exact ⟨_, rfl⟩
    · exact ⟨_, rfl⟩

/-- A loop iteration that passes the loop test with a non-empty pattern
dereferences `Data`. -/
theorem scanLoop_reads_head (M : Module) (mem : Memory) (tok : Nat) (rest : List Nat)
    (fuel Data : Nat) (hD : Data < PTR_RANGE)
    (h : Data ≤ scanLimit M (tok :: rest).length) :
    Data ∈ (scanLoop M mem (tok :: rest) (fuel + 1) Data).reads := by
  obtain ⟨tl, htl⟩ := compareLoop_reads_head M mem Data 0 tok rest
  have hmod : (Data + 0) % PTR_RANGE = Data := Nat.mod_eq_of_lt (by omega)
  rw [hmod] at htl
  rw [scanLoop]
  simp only [h, if_true]
  cases hcl : compareLoop M mem Data 0 (tok :: rest) with
  | mk r rs =>
    rw [hcl] at htl
    simp only at htl
    subst htl
    cases r with
    | none => simp
    | some b => cases b <;> simp

/-- When the bound of the loop test has wrapped around, the loop runs until a
read leaves the image. -/
theorem scanLoop_wrap (M : Module) (mem : Memory) (P : List Nat)
    (hR : M.m_ModuleBase + M.m_ModuleSize < PTR_RANGE)
    (h1 : M.m_ModuleBase + M.m_ModuleSize < P.length) (h2 : P.length < PTR_RANGE) :
    ∀ (n j fuel : Nat), j + n = M.m_ModuleSize → n < fuel →
      (scanLoop M mem P fuel (M.m_ModuleBase + j)).result = Outcome.outOfRange := by
  have hlim := scanLimit_wrap M P.length hR h1 h2
  intro n
  induction n with
  | zero =>
    intro j fuel hj hf
    obtain ⟨fuel, rfl⟩ : ∃ f, fuel = f + 1 := ⟨fuel - 1, by omega⟩
    apply scanLoop_fault
    · rw [hlim]; omega
    · cases P with
      | nil => simp at h1
      | cons tok rest =>
        have hmod : (M.m_ModuleBase + j + 0) % PTR_RANGE = M.m_ModuleBase + j :=
          Nat.mod_eq_of_lt (by omega)
        have hrd : M.readByte mem (M.m_ModuleBase + j) = none := by
          simp only [Module.readByte, Module.inRange]
          rw [if_neg]
          simp only [Bool.and_eq_true, decide_eq_true_eq]
          omega
        rw [compareLoop]
        simp only [hmod, hrd]
  | succ n ih =>
    intro j fuel hj hf
    obtain ⟨fuel, rfl⟩ : ∃ f, fuel = f + 1 := ⟨fuel - 1, by omega⟩
    have htest : M.m_ModuleBase + j ≤ scanLimit M P.length := by rw [hlim]; omega
    cases hc : (compareLoop M mem (M.m_ModuleBase + j) 0 P).1 with
    | none => exact scanLoop_fault M mem P fuel _ htest hc
    | some b =>
      cases b with
      | true =>
        have := (compareLoop_true M mem _ hR P 0 (by omega) hc).1
        omega
      | false =>
        rw [scanLoop_next M mem P fuel _ htest hc]
        have hmod : (M.m_ModuleBase + j + 1) % PTR_RANGE = M.m_ModuleBase + (j + 1) :=
          Nat.mod_eq_of_lt (by omega)
        rw [hmod]
        exact ih (j + 1) fuel (by omega) (by omega)

/-! ## Facts about `Module::FindPattern` -/

/-- When the pattern matches somewhere inside the image, the leftmost such
offset is returned. -/
theorem FindPattern_ret_of_match (M : Module) (mem : Memory) (P : List Nat)
    (hM : M.WellFormed) (hex : ∃ k, k + P.length ≤ M.m_ModuleSize ∧ MatchesAt M mem P k) :
    ∃ k, k + P.length ≤ M.m_ModuleSize ∧ MatchesAt M mem P k ∧
      (∀ j, j < k → ¬ MatchesAt M mem P j) ∧
      (M.FindPattern mem P).result = Outcome.ret (M.m_ModuleBase + k) := by
  obtain ⟨_, _, hR⟩ := hM
  classical
  obtain ⟨hk0, hm0⟩ := Nat.find_spec hex
  have hfirst : ∀ j, j < Nat.find hex → ¬ MatchesAt M mem P j := by
    intro j hlt hmj
    exact Nat.find_min hex hlt ⟨by omega, hmj⟩
  refine ⟨Nat.find hex, hk0, hm0, hfirst, ?_⟩
  have := scanLoop_first M mem P (Nat.find hex) hR hk0 hm0 (Nat.find hex) 0
    (M.m_ModuleSize + 2) (by omega) (by omega) (fun j2 _ h2 => hfirst j2 h2)
  simpa [Module.FindPattern] using this

/-- Outside of the wrap-around of the loop bound, `nullptr` is returned
exactly when the pattern matches at no start position of the image. -/
theorem FindPattern_nullptr_iff_of_le (M : Module) (mem : Memory) (P : List Nat)
    (hM : M.WellFormed) (hP : P.length ≤ M.m_ModuleBase + M.m_ModuleSize) :
    (M.FindPattern mem P).result = Outcome.ret 0 ↔
      ¬ ∃ k, k + P.length ≤ M.m_ModuleSize ∧ MatchesAt M mem P k := by
  constructor
  · intro hres hex
    obtain ⟨k, _, _, _, hk⟩ := FindPattern_ret_of_match M mem P hM hex
    rw [hk] at hres
    simp only [Outcome.ret.injEq] at hres
    have := hM.1
    omega
  · intro hno
    obtain ⟨_, _, hR⟩ := hM
    have := scanLoop_notFound M mem P hR hP (M.m_ModuleSize + 1) 0 (M.m_ModuleSize + 2)
      (by omega) (by omega) (fun j2 _ h2 hmj => hno ⟨j2, h2, hmj⟩)
    simpa [Module.FindPattern] using this

/-- Outside of the wrap-around of the loop bound, a pattern longer than the
image is answered with `nullptr` before any byte is read. -/
theorem FindPattern_longer_of_le (M : Module) (mem : Memory) (P : List Nat)
    (hM : M.WellFormed) (hlen : M.m_ModuleSize < P.length)
    (hP : P.length ≤ M.m_ModuleBase + M.m_ModuleSize) :
    M.FindPattern mem P = ⟨Outcome.ret 0, []⟩ := by
  obtain ⟨_, _, hR⟩ := hM
  unfold Module.FindPattern
  apply scanLoop_exit
  rw [scanLimit_eq M _ hR hP]
  omega

/-- A pattern longer than the distance from address `0` to the end of the
image is not answered with `nullptr`: the loop is entered, `Data[ 0 ]` is read
at the base and the run ends with a read outside of the image. -/
theorem FindPattern_wrap (M : Module) (mem : Memory) (P : List Nat)
    (hM : M.WellFormed) (h1 : M.m_ModuleBase + M.m_ModuleSize < P.length)
    (h2 : P.length < PTR_RANGE) :
    (M.FindPattern mem P).result = Outcome.outOfRange ∧
      M.m_ModuleBase ∈ (M.FindPattern mem P).reads := by
  obtain ⟨_, _, hR⟩ := hM
  constructor
  · have := scanLoop_wrap M mem P hR h1 h2 M.m_ModuleSize 0 (M.m_ModuleSize + 2)
      (by omega) (by omega)
    simpa [Module.FindPattern] using this
  · cases P with
    | nil => simp at h1
    | cons tok rest =>
      unfold Module.FindPattern
      apply scanLoop_reads_head M mem tok rest _ _ (by omega)
      rw [scanLimit_wrap M _ hR h1 h2]
      omega

/-- The iteration budget of the model is never used up: a run on a
well-formed handle returns a pointer or ends with a read outside of the
image. -/
theorem FindPattern_defined (M : Module) (mem : Memory) (P : List Nat)
    (hM : M.WellFormed) (hP : P.length < PTR_RANGE) :
    (M.FindPattern mem P).result ≠ Outcome.outOfFuel := by
  by_cases hle : P.length ≤ M.m_ModuleBase + M.m_ModuleSize
  · by_cases hex : ∃ k, k + P.length ≤ M.m_ModuleSize ∧ MatchesAt M mem P k
    · obtain ⟨k, _, _, _, hk⟩ := FindPattern_ret_of_match M mem P hM hex
      rw [hk]; simp
    · rw [(FindPattern_nullptr_iff_of_le M mem P hM hle).mpr hex]; simp
  · rw [(FindPattern_wrap M mem P hM (by omega) hP).1]; simp

/-! ## The claims about the scanner -/

/-- C1: for a well-formed handle and a pattern `P` that matches the image at
offset `k` (all of `P` lying inside the image, so `|P| <= size`) and at no
smaller offset, the vector overload of `FindPattern` returns `base + k`; this
covers wildcard-free patterns and overlapping matches, where the leftmost one
is returned. -/
theorem FindPattern_first_occurrence (M : Module) (mem : Memory) (P : List Nat) (k : Nat)
    (hM : M.WellFormed) (hk : k + P.length ≤ M.m_ModuleSize)
    (hm : MatchesAt M mem P k) (hfirst : ∀ j, j < k → ¬ MatchesAt M mem P j) :
    (M.FindPattern mem P).result = Outcome.ret (M.m_ModuleBase + k) := by
  obtain ⟨_, _, hR⟩ := hM
  have := scanLoop_first M mem P k hR hk hm k 0 (M.m_ModuleSize + 2) (by omega) (by omega)
    (fun j2 _ h2 => hfirst j2 h2)
  simpa [Module.FindPattern] using this

/-- Witness of C1: `01 01` occurs in `07 01 01 01 02` at the overlapping
offsets `1` and `2`, and the scan returns `base + 1`. -/
theorem FindPattern_first_occurrence_witness :
    MatchesAt smallModule smallMemory [1, 1] 2 ∧
      (smallModule.FindPattern smallMemory [1, 1]).result =
        Outcome.ret (smallModule.m_ModuleBase + 1) :=
  ⟨by decide,
    FindPattern_first_occurrence smallModule smallMemory [1, 1] 1 (by decide) (by decide)
      (by decide) (by decide)⟩

/-- On a run that makes no dereference outside of the image: whenever the
vector overload of `FindPattern` returns a pointer `a` other than `nullptr`,
`a` lies in `[base, base + size - |P|]` and every token of `P` equals the byte
at `a + i` or is the wildcard `256`. -/
theorem FindPattern_sound (M : Module) (mem : Memory) (P : List Nat) (a : Nat)
    (hM : M.WellFormed) (hres : (M.FindPattern mem P).result = Outcome.ret a)
    (ha : a ≠ 0) :
    (M.m_ModuleBase ≤ a ∧ a ≤ M.m_ModuleBase + M.m_ModuleSize - P.length ∧
        P.length ≤ M.m_ModuleSize) ∧
      ∀ i, i < P.length → mem (a + i) % 256 = P.getD i 0 ∨ P.getD i 0 = 256 := by
  obtain ⟨_, _, hR⟩ := hM
  obtain ⟨k, rfl, _, hk, hm⟩ := scanLoop_sound M mem P hR (M.m_ModuleSize + 2) 0 a
    (by omega) (by simpa [Module.FindPattern] using hres) ha
  refine ⟨⟨by omega, by omega, by omega⟩, ?_⟩
  intro i hi
  have := hm i hi
  simpa [Module.byte, Nat.add_assoc] using this

/-- An instance of `FindPattern_sound`: the scan of `07 01 01 01 02` for
`01 ?? 02` returns `base + 2`. -/
theorem FindPattern_sound_witness :
    (smallModule.m_ModuleBase ≤ 0x400002 ∧
        0x400002 ≤ smallModule.m_ModuleBase + smallModule.m_ModuleSize - [1, 256, 2].length ∧
        [1, 256, 2].length ≤ smallModule.m_ModuleSize) ∧
      ∀ i, i < [1, 256, 2].length →
        smallMemory (0x400002 + i) % 256 = [1, 256, 2].getD i 0 ∨ [1, 256, 2].getD i 0 = 256 :=
  FindPattern_sound smallModule smallMemory [1, 256, 2] 0x400002 (by decide) (by decide)
    (by decide)

/-- C3, at the failing input: the pattern of `0x11001` wildcards matches at no
start position of the 4096-byte image at `0x10000`, and yet `FindPattern` does
not return `nullptr`: the loop bound wraps around and the run ends with a read
outside of the image. -/
theorem FindPattern_not_nullptr_without_match :
    (¬ ∃ k, k + longPattern.length ≤ lowModule.m_ModuleSize ∧
        MatchesAt lowModule zeroMemory longPattern k) ∧
      (lowModule.FindPattern zeroMemory longPattern).result = Outcome.outOfRange ∧
      (lowModule.FindPattern zeroMemory longPattern).result ≠ Outcome.ret 0 := by
  have hlen : longPattern.length = 0x11001 := List.length_replicate _ _
  have h := (FindPattern_wrap lowModule zeroMemory longPattern (by decide)
    (by rw [hlen]; decide) (by rw [hlen, PTR_RANGE_eq]; decide)).1
  refine ⟨?_, h, by rw [h]; decide⟩
  rintro ⟨k, hk, _⟩
  rw [hlen] at hk
  have : lowModule.m_ModuleSize = 0x1000 := rfl
  omega

/-- C4: when token `i` of `P` is the wildcard, replacing the byte at offset
`k + i` of the image by any value `v` does not change what the lambda returns
at the start offset `k` (with `k + |P| <= size`), nor whether the match
predicate holds there. -/
theorem wildcard_position_insensitive (M : Module) (mem : Memory) (P : List Nat)
    (i k v : Nat) (hM : M.WellFormed) (hi : P[i]? = some 256)
    (hk : k + P.length ≤ M.m_ModuleSize) :
    (compareLoop M (Function.update mem (M.m_ModuleBase + (k + i)) v)
        (M.m_ModuleBase + k) 0 P).1 = (compareLoop M mem (M.m_ModuleBase + k) 0 P).1 ∧
      (MatchesAt M (Function.update mem (M.m_ModuleBase + (k + i)) v) P k ↔
        MatchesAt M mem P k) := by
  obtain ⟨_, _, hR⟩ := hM
  have hiff : MatchesAt M (Function.update mem (M.m_ModuleBase + (k + i)) v) P k ↔
      MatchesAt M mem P k := by
    unfold MatchesAt Module.byte
    refine forall_congr' fun i2 => forall_congr' fun hi2 => ?_
    by_cases h : i2 = i
    · subst h
      simp [hi]
    · have hne : M.m_ModuleBase + (k + i2) ≠ M.m_ModuleBase + (k + i) := by omega
      rw [Function.update_noteq hne]
  refine ⟨?_, hiff⟩
  rw [compareLoop_at_offset M _ P k hR hk, compareLoop_at_offset M mem P k hR hk]
  simp only [Option.some.injEq, decide_eq_decide]
  exact hiff

/-- Witness of C4: `01 ?? 02` at offset `2` of `07 01 01 01 02`, with the byte
under the wildcard replaced by `0x99`. -/
theorem wildcard_position_insensitive_witness :
    (compareLoop smallModule (Function.update smallMemory (smallModule.m_ModuleBase + (2 + 1)) 0x99)
        (smallModule.m_ModuleBase + 2) 0 [1, 256, 2]).1 =
        (compareLoop smallModule smallMemory (smallModule.m_ModuleBase + 2) 0 [1, 256, 2]).1 ∧
      (MatchesAt smallModule
          (Function.update smallMemory (smallModule.m_ModuleBase + (2 + 1)) 0x99) [1, 256, 2] 2 ↔
        MatchesAt smallModule smallMemory [1, 256, 2] 2) :=
  wildcard_position_insensitive smallModule smallMemory [1, 256, 2] 1 2 0x99 (by decide)
    (by decide) (by decide)

/-- C5, at the failing input: the pattern of `0x11001` wildcards is longer
than the 4096-byte image at `0x10000`, and yet `FindPattern` does not return
`nullptr` before reading: it dereferences the base of the image and ends with
a read outside of the image. -/
theorem FindPattern_longer_pattern_reads :
    lowModule.m_ModuleSize < longPattern.length ∧
      (lowModule.FindPattern zeroMemory longPattern).result = Outcome.outOfRange ∧
      lowModule.m_ModuleBase ∈ (lowModule.FindPattern zeroMemory longPattern).reads := by
  have hlen : longPattern.length = 0x11001 := List.length_replicate _ _
  refine ⟨by rw [hlen]; decide, ?_⟩
  exact FindPattern_wrap lowModule zeroMemory longPattern (by decide)
    (by rw [hlen]; decide) (by rw [hlen, PTR_RANGE_eq]; decide)

/-! ## Facts about `strtol` on hex elements -/

theorem isHexDigit_range (c : Char) (h : isHexDigit c = true) :
    (48 ≤ c.toNat ∧ c.toNat ≤ 57) ∨ (65 ≤ c.toNat ∧ c.toNat ≤ 70) ∨
      (97 ≤ c.toNat ∧ c.toNat ≤ 102) := by
  unfold isHexDigit hexDigitVal at h
  split_ifs at h with h1 h2 h3
  · exact Or.inl h1
  · exact Or.inr (Or.inl h2)
  · exact Or.inr (Or.inr h3)
  · simp at h

theorem hexDigitVal_of_isHexDigit (c : Char) (h : isHexDigit c = true) :
    ∃ v, hexDigitVal c = some v ∧ v < 16 := by
  have hr := isHexDigit_range c h
  unfold isHexDigit at h
  obtain ⟨v, hv⟩ := Option.isSome_iff_exists.mp h
  refine ⟨v, hv, ?_⟩
  unfold hexDigitVal at hv
  split_ifs at hv <;> simp only [Option.some.injEq] at hv <;> omega

theorem isHexDigit_not_space (c : Char) (h : isHexDigit c = true) : c ≠ ' ' := by
  rintro rfl; revert h; decide

theorem isHexDigit_not_question (c : Char) (h : isHexDigit c = true) : c ≠ '?' := by
  rintro rfl; revert h; decide

theorem isHexDigit_not_minus (c : Char) (h : isHexDigit c = true) : c ≠ '-' := by
  rintro rfl; revert h; decide

theorem isHexDigit_not_plus (c : Char) (h : isHexDigit c = true) : c ≠ '+' := by
  rintro rfl; revert h; decide

theorem isHexDigit_not_x (c : Char) (h : isHexDigit c = true) : ¬ (c = 'x' ∨ c = 'X') := by
  rintro (rfl | rfl) <;> revert h <;> decide

theorem isHexDigit_not_isspace (c : Char) (h : isHexDigit c = true) : isspace c = false := by
  have hr := isHexDigit_range c h
  unfold isspace
  simp only [Bool.or_eq_false_iff, Bool.and_eq_false_iff, decide_eq_false_iff_not]
  omega

theorem strtolDigits_endsRun (s : List Char) (acc : Nat) (hs : EndsRun s) :
    strtolDigits s acc = acc := by
  rcases hs with rfl | ⟨t, rfl⟩
  · rfl
  · rw [strtolDigits]
    have : hexDigitVal ' ' = none := by decide
    rw [this]

theorem strtol_of_digits (d : Char) (s : List Char) (n : Nat)
    (hd : isHexDigit d = true)
    (hmark : strtolSkipRadixMark (d :: s) = d :: s)
    (hval : strtolDigits (d :: s) 0 = n) (hn : n < 256) :
    toUInt16 (strtol (d :: s)) = n := by
  have h1 : strtolSkipSpace (d :: s) = d :: s := by
    rw [strtolSkipSpace, isHexDigit_not_isspace d hd]; simp
  have hm := isHexDigit_not_minus d hd
  have hp := isHexDigit_not_plus d hd
  unfold strtol
  simp only [h1, List.head?_cons, Option.some.injEq, hm, hp, or_self, if_false,
    decide_False, hmark, hval]
  unfold toUInt16 UINT16_RANGE LONG_MAX
  simp only [Bool.false_eq_true, if_false]
  split_ifs with h
  · omega
  · omega

/-- A one-digit element followed by the end of the text or a space is
converted to the value of its digit. -/
theorem strtol_hex1 (d : Char) (s : List Char) (hd : isHexDigit d = true) (hs : EndsRun s) :
    toUInt16 (strtol (d :: s)) = (hexDigitVal d).getD 0 := by
  obtain ⟨v, hv, hlt⟩ := hexDigitVal_of_isHexDigit d hd
  have hval : strtolDigits (d :: s) 0 = v := by
    rw [strtolDigits, hv]
    simp only [Nat.zero_mul, Nat.zero_add]
    exact strtolDigits_endsRun s _ hs
  have hmark : strtolSkipRadixMark (d :: s) = d :: s := by
    rcases hs with rfl | ⟨t, rfl⟩
    · rfl
    · rw [strtolSkipRadixMark]
      simp
  rw [strtol_of_digits d s v hd hmark hval (by omega), hv]
  rfl

/-- A two-digit element followed by the end of the text or a space is
converted to its base-16 value. -/
theorem strtol_hex2 (d1 d2 : Char) (s : List Char) (h1 : isHexDigit d1 = true)
    (h2 : isHexDigit d2 = true) (hs : EndsRun s) :
    toUInt16 (strtol (d1 :: d2 :: s)) =
      16 * (hexDigitVal d1).getD 0 + (hexDigitVal d2).getD 0 := by
  obtain ⟨v1, hv1, hlt1⟩ := hexDigitVal_of_isHexDigit d1 h1
  obtain ⟨v2, hv2, hlt2⟩ := hexDigitVal_of_isHexDigit d2 h2
  have hval : strtolDigits (d1 :: d2 :: s) 0 = 16 * v1 + v2 := by
    rw [strtolDigits, hv1]
    simp only [Nat.zero_mul, Nat.zero_add]
    rw [strtolDigits, hv2]
    simp only []
    rw [strtolDigits_endsRun s _ hs]
    omega
  have hmark : strtolSkipRadixMark (d1 :: d2 :: s) = d1 :: d2 :: s := by
    rw [strtolSkipRadixMark]
    simp [isHexDigit_not_x d2 h2]
  rw [strtol_of_digits d1 (d2 :: s) _ h1 hmark hval (by omega), hv1, hv2]
  rfl

/-! ## Facts about the parser loop -/

theorem parseLoop_space (i : Nat) (s : List Char) :
    (parseLoop i (' ' :: s)).returned = (parseLoop (i + 1) s).returned := by
  cases s with
  | nil => simp [parseLoop, ParseRun.returned]
  | cons d rest => rw [parseLoop]; simp [ParseRun.returned]

theorem parseLoop_wild2 (i : Nat) (s : List Char) :
    (parseLoop i ('?' :: '?' :: s)).returned =
      (parseLoop (i + 2) s).returned.map (fun v => 256 :: v) := by
  rw [parseLoop]
  simp only [ParseRun.returned]
  simp only [show ('?' : Char) ≠ ' ' by decide, if_false, if_true]
  split_ifs <;> simp

theorem parseLoop_wild1_end (i : Nat) :
    (parseLoop i ['?']).returned = some [256] := by
  simp [parseLoop, ParseRun.returned]

theorem parseLoop_wild1_space (i : Nat) (s : List Char) :
    (parseLoop i ('?' :: ' ' :: s)).returned =
      (parseLoop (i + 2) s).returned.map (fun v => 256 :: v) := by
  have h := parseLoop_space (i + 1) s
  rw [parseLoop]
  simp only [show ('?' : Char) ≠ ' ' by decide, show (' ' : Char) ≠ '?' by decide,
    if_false, if_true]
  simp only [ParseRun.returned] at h ⊢
  rw [← h]
  split_ifs <;> simp

theorem parseLoop_hex_end (i : Nat) (c : Char) (h1 : c ≠ ' ') (h2 : c ≠ '?') :
    (parseLoop i [c]).returned = none := by
  rw [parseLoop]
  simp [h1, h2, ParseRun.returned]

theorem parseLoop_hex (i : Nat) (c d : Char) (s : List Char) (h1 : c ≠ ' ') (h2 : c ≠ '?') :
    (parseLoop i (c :: d :: s)).returned =
      (parseLoop (i + 2) s).returned.map (fun v => toUInt16 (strtol (c :: d :: s)) :: v) := by
  rw [parseLoop]
  simp only [h1, h2, if_false, ParseRun.returned]
  split_ifs <;> simp

/-- The parser on one element followed by a space and more text. -/
theorem parseLoop_element_space (e : Element) (he : e.WellFormed) (i : Nat) (s : List Char) :
    (parseLoop i (e.chars ++ ' ' :: s)).returned =
      (parseLoop (i + (e.chars.length + 1)) s).returned.map (fun v => e.token :: v) := by
  cases e with
  | hex1 d =>
    have hd : isHexDigit d = true := he
    simp only [Element.chars, Element.token, List.singleton_append, List.length_singleton]
    rw [parseLoop_hex i d ' ' s (isHexDigit_not_space d hd) (isHexDigit_not_question d hd),
      strtol_hex1 d (' ' :: s) hd (Or.inr ⟨s, rfl⟩)]
  | hex2 d1 d2 =>
    obtain ⟨h1, h2⟩ : isHexDigit d1 = true ∧ isHexDigit d2 = true := he
    simp only [Element.chars, Element.token, List.cons_append, List.nil_append,
      List.length_cons, List.length_nil]
    rw [parseLoop_hex i d1 d2 _ (isHexDigit_not_space d1 h1) (isHexDigit_not_question d1 h1),
      strtol_hex2 d1 d2 (' ' :: s) h1 h2 (Or.inr ⟨s, rfl⟩), parseLoop_space]
  | wild1 =>
    simp only [Element.chars, Element.token, List.singleton_append, List.length_singleton]
    exact parseLoop_wild1_space i s
  | wild2 =>
    simp only [Element.chars, Element.token, List.cons_append, List.nil_append,
      List.length_cons, List.length_nil]
    rw [parseLoop_wild2, parseLoop_space]

/-- The parser on the last element of a text: a one-digit hex element makes
the cursor step beyond the end of the text. -/
theorem parseLoop_element_end (e : Element) (he : e.WellFormed) (i : Nat) :
    (parseLoop i e.chars).returned = if e.isHex1 then none else some [e.token] := by
  cases e with
  | hex1 d =>
    have hd : isHexDigit d = true := he
    simp only [Element.chars, Element.isHex1, if_true]
    exact parseLoop_hex_end i d (isHexDigit_not_space d hd) (isHexDigit_not_question d hd)
  | hex2 d1 d2 =>
    obtain ⟨h1, h2⟩ : isHexDigit d1 = true ∧ isHexDigit d2 = true := he
    simp only [Element.chars, Element.token, Element.isHex1, Bool.false_eq_true, if_false]
    rw [parseLoop_hex i d1 d2 _ (isHexDigit_not_space d1 h1) (isHexDigit_not_question d1 h1),
      strtol_hex2 d1 d2 [] h1 h2 (Or.inl rfl)]
    simp [parseLoop, ParseRun.returned]
  | wild1 =>
    simp only [Element.chars, Element.token, Element.isHex1, Bool.false_eq_true, if_false]
    exact parseLoop_wild1_end i
  | wild2 =>
    simp only [Element.chars, Element.token, Element.isHex1, Bool.false_eq_true, if_false]
    rw [parseLoop_wild2]
    simp [parseLoop, ParseRun.returned]

/-- The parser on a text made of elements: one token an element, in order,
unless the text ends in a one-digit hex element, where the cursor steps
beyond the end of the text. -/
theorem parseLoop_render (es : List Element) (hwf : ∀ e ∈ es, e.WellFormed) :
    ∀ i, (parseLoop i (render es)).returned =
      if endsInHex1 es then none else some (es.map Element.token) := by
  induction es with
  | nil => intro i; simp [render, endsInHex1, parseLoop, ParseRun.returned]
  | cons e es ih =>
    intro i
    have he : e.WellFormed := hwf e (by simp)
    cases es with
    | nil =>
      simp only [render, endsInHex1, List.map_cons, List.map_nil]
      exact parseLoop_element_end e he i
    | cons e2 es =>
      have ih2 := ih (fun x hx => hwf x (by simp [hx])) (i + (e.chars.length + 1))
      simp only [render, endsInHex1] at ih2 ⊢
      rw [parseLoop_element_space e he, ih2]
      split_ifs <;> simp

/-! ## Upper-case hex digits -/

theorem upperHex_cases (c : Char) :
    upperHex c = c ∨ (c = 'a' ∧ upperHex c = 'A') ∨ (c = 'b' ∧ upperHex c = 'B') ∨
      (c = 'c' ∧ upperHex c = 'C') ∨ (c = 'd' ∧ upperHex c = 'D') ∨
      (c = 'e' ∧ upperHex c = 'E') ∨ (c = 'f' ∧ upperHex c = 'F') := by
  unfold upperHex
  split_ifs with h1 h2 h3 h4 h5 h6
  · exact Or.inr (Or.inl ⟨h1, rfl⟩)
  · exact Or.inr (Or.inr (Or.inl ⟨h2, rfl⟩))
  · exact Or.inr (Or.inr (Or.inr (Or.inl ⟨h3, rfl⟩)))
  · exact Or.inr (Or.inr (Or.inr (Or.inr (Or.inl ⟨h4, rfl⟩))))
  · exact Or.inr (Or.inr (Or.inr (Or.inr (Or.inr (Or.inl ⟨h5, rfl⟩)))))
  · exact Or.inr (Or.inr (Or.inr (Or.inr (Or.inr (Or.inr ⟨h6, rfl⟩)))))
  · exact Or.inl rfl

theorem hexDigitVal_upperHex (c : Char) : hexDigitVal (upperHex c) = hexDigitVal c := by
  rcases upperHex_cases c with h | ⟨rfl, h⟩ | ⟨rfl, h⟩ | ⟨rfl, h⟩ | ⟨rfl, h⟩ | ⟨rfl, h⟩ | ⟨rfl, h⟩ <;>
    rw [h] <;> decide

theorem isspace_upperHex (c : Char) : isspace (upperHex c) = isspace c := by
  rcases upperHex_cases c with h | ⟨rfl, h⟩ | ⟨rfl, h⟩ | ⟨rfl, h⟩ | ⟨rfl, h⟩ | ⟨rfl, h⟩ | ⟨rfl, h⟩ <;>
    rw [h] <;> decide

theorem upperHex_eq_mark (c k : Char) (hk : IsMark k) : upperHex c = k ↔ c = k := by
  rcases upperHex_cases c with h | ⟨rfl, h⟩ | ⟨rfl, h⟩ | ⟨rfl, h⟩ | ⟨rfl, h⟩ | ⟨rfl, h⟩ | ⟨rfl, h⟩ <;>
    rw [h] <;>
    rcases hk with rfl | rfl | rfl | rfl | rfl | rfl | rfl <;> decide

theorem strtolSkipSpace_upperHex (s : List Char) :
    strtolSkipSpace (s.map upperHex) = (strtolSkipSpace s).map upperHex := by
  induction s with
  | nil => rfl
  | cons c rest ih =>
    simp only [List.map_cons, strtolSkipSpace, isspace_upperHex]
    split_ifs
    · exact ih
    · rfl

theorem strtolDigits_upperHex (s : List Char) :
    ∀ acc, strtolDigits (s.map upperHex) acc = strtolDigits s acc := by
  induction s with
  | nil => intro acc; rfl
  | cons c rest ih =>
    intro acc
    simp only [List.map_cons, strtolDigits, hexDigitVal_upperHex]
    cases hexDigitVal c with
    | none => rfl
    | some v => exact ih _

theorem strtolSkipRadixMark_upperHex (s : List Char) :
    strtolSkipRadixMark (s.map upperHex) = (strtolSkipRadixMark s).map upperHex := by
  match s with
  | [] => rfl
  | [c] => rfl
  | c :: x :: rest =>
    simp only [List.map_cons, strtolSkipRadixMark]
    simp only [upperHex_eq_mark c '0' (by simp [IsMark]),
      upperHex_eq_mark x 'x' (by simp [IsMark]), upperHex_eq_mark x 'X' (by simp [IsMark])]
    split_ifs <;> simp

theorem head_upperHex_eq_mark (s : List Char) (k : Char) (hk : IsMark k) :
    (s.map upperHex).head? = some k ↔ s.head? = some k := by
  cases s with
  | nil => simp
  | cons c rest => simpa using upperHex_eq_mark c k hk

/-- The function `strtol` does not tell the letters `a` to `f` from their
upper-case forms. -/
theorem strtol_upperHex (s : List Char) : strtol (s.map upperHex) = strtol s := by
  unfold strtol
  simp only [strtolSkipSpace_upperHex]
  have hm := head_upperHex_eq_mark (strtolSkipSpace s) '-' (by simp [IsMark])
  have hp := head_upperHex_eq_mark (strtolSkipSpace s) '+' (by simp [IsMark])
  simp only [hm, hp]
  have hmag : ∀ X : List Char,
      strtolDigits (strtolSkipRadixMark (List.map upperHex X)) 0 =
        strtolDigits (strtolSkipRadixMark X) 0 := by
    intro X
    rw [strtolSkipRadixMark_upperHex, strtolDigits_upperHex]
  have hs2 : (if (strtolSkipSpace s).head? = some '-' ∨ (strtolSkipSpace s).head? = some '+'
        then (List.map upperHex (strtolSkipSpace s)).tail
        else List.map upperHex (strtolSkipSpace s)) =
      List.map upperHex
        (if (strtolSkipSpace s).head? = some '-' ∨ (strtolSkipSpace s).head? = some '+'
          then (strtolSkipSpace s).tail else strtolSkipSpace s) := by
    split_ifs
    · cases strtolSkipSpace s <;> simp
    · rfl
  simp only [hs2, hmag]

/-- The parser loop does not tell the letters `a` to `f` from their
upper-case forms. -/
theorem parseLoop_upperHex :
    ∀ (n : Nat) (s : List Char), s.length ≤ n →
      ∀ i, parseLoop i (s.map upperHex) = parseLoop i s := by
  intro n
  induction n with
  | zero =>
    intro s hs i
    have : s = [] := List.length_eq_zero.mp (by omega)
    subst this
    rfl
  | succ n ih =>
    intro s hs i
    match s with
    | [] => rfl
    | [c] =>
      have hst := strtol_upperHex [c]
      simp only [List.map_cons, List.map_nil] at hst ⊢
      simp only [parseLoop, upperHex_eq_mark c ' ' (by simp [IsMark]),
        upperHex_eq_mark c '?' (by simp [IsMark]), hst]
    | c :: d :: rest =>
      have hst := strtol_upperHex (c :: d :: rest)
      have ih1 := ih (d :: rest) (by simp only [List.length_cons] at hs ⊢; omega)
      have ih2 := ih rest (by simp only [List.length_cons] at hs ⊢; omega)
      simp only [List.map_cons] at hst ih1 ⊢
      simp only [parseLoop, upperHex_eq_mark c ' ' (by simp [IsMark]),
        upperHex_eq_mark c '?' (by simp [IsMark]),
        upperHex_eq_mark d '?' (by simp [IsMark]), hst, ih1, ih2]

/-! ## Facts about `ConvertIDAPatternToByteVector` -/

theorem ConvertIDAPatternToByteVector_mk (l : List Char) :
    ConvertIDAPatternToByteVector (String.mk l) = (parseLoop 0 l).returned := rfl

/-- The parser on a text made of elements returns one token an element, in
order, unless the text ends in a one-digit hex element: there the cursor
steps beyond the end of the text and nothing is returned. -/
theorem ConvertIDAPatternToByteVector_signatureText (es : List Element)
    (hwf : ∀ e ∈ es, e.WellFormed) :
    ConvertIDAPatternToByteVector (signatureText es) =
      if endsInHex1 es then none else some (es.map Element.token) := by
  unfold signatureText
  rw [ConvertIDAPatternToByteVector_mk]
  exact parseLoop_render es hwf 0

theorem endsInHex1_of_twoDigitOrWild (es : List Element)
    (h2 : ∀ e ∈ es, e.isTwoDigitOrWild = true) : endsInHex1 es = false := by
  induction es with
  | nil => rfl
  | cons e es ih =>
    cases es with
    | nil =>
      have := h2 e (by simp)
      cases e <;> simp_all [endsInHex1, Element.isHex1, Element.isTwoDigitOrWild]
    | cons e2 es =>
      simpa [endsInHex1] using ih (fun x hx => h2 x (by simp [hx]))

/-! ## The claims about the parser -/

/-- C7, at the failing input: on the text `FC A`, made of a two-digit and a
one-digit hex element, the parser pushes the tokens `FC` and `0A` and then
moves its cursor to position `5` of a text of length `4`: the loop does not
end through its test and the function has no defined result. -/
theorem ConvertIDAPatternToByteVector_trailing_digit :
    signatureText [Element.hex2 'F' 'C', Element.hex1 'A'] = "FC A" ∧
      parseLoop 0 "FC A".toList = ⟨[0xFC, 0x0A], [0, 2, 3], 5, false⟩ ∧
      ConvertIDAPatternToByteVector "FC A" = none := by
  decide

/-- C8, at the failing input: on the text `A` the parser pushes the token
`0A` and then moves its cursor to position `2` of a text of length `1`, so that
the function has no defined result, while `0A` is parsed to the one token
`0A`. -/
theorem ConvertIDAPatternToByteVector_single_digit :
    parseLoop 0 "A".toList = ⟨[0x0A], [0], 2, false⟩ ∧
      ConvertIDAPatternToByteVector "A" = none ∧
      ConvertIDAPatternToByteVector "0A" = some [0x0A] := by
  decide

/-- C9: for a well-formed handle on an image of at least eight bytes whose
bytes `0, 1` are `FC, E8` and whose bytes `6, 7` are `8B, 3D`, the string
overload of `FindPattern` with the text `FC E8 ?? ?? ?? ?? 8B 3D` returns
`base + 0`. -/
theorem FindPattern_string_scenario (M : Module) (mem : Memory) (hM : M.WellFormed)
    (hsize : 8 ≤ M.m_ModuleSize)
    (h0 : M.byte mem 0 = 0xFC) (h1 : M.byte mem 1 = 0xE8)
    (h6 : M.byte mem 6 = 0x8B) (h7 : M.byte mem 7 = 0x3D) :
    (M.FindPattern_string mem "FC E8 ?? ?? ?? ?? 8B 3D").map ScanRun.result =
      some (Outcome.ret (M.m_ModuleBase + 0)) := by
  obtain ⟨_, _, hR⟩ := hM
  have hparse : ConvertIDAPatternToByteVector "FC E8 ?? ?? ?? ?? 8B 3D" =
      some [0xFC, 0xE8, 256, 256, 256, 256, 0x8B, 0x3D] := by decide
  have hm : MatchesAt M mem [0xFC, 0xE8, 256, 256, 256, 256, 0x8B, 0x3D] 0 := by
    intro i hi
    simp only [List.length_cons, List.length_nil] at hi
    have hcases : i = 0 ∨ i = 1 ∨ i = 2 ∨ i = 3 ∨ i = 4 ∨ i = 5 ∨ i = 6 ∨ i = 7 := by omega
    rcases hcases with rfl | rfl | rfl | rfl | rfl | rfl | rfl | rfl <;>
      simp [h0, h1, h6, h7]
  have := scanLoop_first M mem _ 0 hR (by simpa using hsize) hm 0 0 (M.m_ModuleSize + 2)
    rfl (by omega) (fun j2 _ h2 => absurd h2 (Nat.not_lt_zero _))
  simp only [Module.FindPattern_string, hparse, Option.map_some', Module.FindPattern]
  exact congrArg some this

/-- Witness of C9: the scenario of the specification, the buffer
`FC E8 11 22 33 44 8B 3D 00` at `0x400000`. -/
theorem FindPattern_string_scenario_witness :
    (scenarioModule.FindPattern_string scenarioMemory "FC E8 ?? ?? ?? ?? 8B 3D").map
        ScanRun.result = some (Outcome.ret (scenarioModule.m_ModuleBase + 0)) :=
  FindPattern_string_scenario scenarioModule scenarioMemory (by decide) (by decide)
    (by decide) (by decide) (by decide) (by decide)

/-- C10: for a text made of space-separated elements of two hex digits or
`?` / `??`, the parser returns the same token sequence, one token an element,
for the text and for the text with every letter `a` to `f` replaced by its
upper-case form. -/
theorem hex_digits_case_insensitive (es : List Element)
    (hwf : ∀ e ∈ es, e.WellFormed) (h2 : ∀ e ∈ es, e.isTwoDigitOrWild = true) :
    ConvertIDAPatternToByteVector (String.mk ((render es).map upperHex)) =
        ConvertIDAPatternToByteVector (signatureText es) ∧
      ConvertIDAPatternToByteVector (signatureText es) = some (es.map Element.token) := by
  constructor
  · unfold signatureText
    rw [ConvertIDAPatternToByteVector_mk, ConvertIDAPatternToByteVector_mk,
      parseLoop_upperHex _ _ (Nat.le_refl _)]
  · rw [ConvertIDAPatternToByteVector_signatureText es hwf,
      endsInHex1_of_twoDigitOrWild es h2]
    rfl

/-- Witness of C10: `fc e8` and `FC E8` both parse to the tokens `FC E8`. -/
theorem hex_digits_case_insensitive_witness :
    (signatureText sigLower = "fc e8" ∧
        String.mk ((render sigLower).map upperHex) = "FC E8") ∧
      ConvertIDAPatternToByteVector (String.mk ((render sigLower).map upperHex)) =
        ConvertIDAPatternToByteVector (signatureText sigLower) ∧
      ConvertIDAPatternToByteVector (signatureText sigLower) = some [0xFC, 0xE8] :=
  ⟨⟨by decide, by decide⟩,
    hex_digits_case_insensitive sigLower (by decide) (by decide)⟩

/-! ## Facts about the cursor of the parser loop -/

theorem parseLoop_cursor_nil (i : Nat) : (parseLoop i []).cursor = i := by
  simp [parseLoop]

theorem parseLoop_cursor_space (i : Nat) (s : List Char) :
    (parseLoop i (' ' :: s)).cursor = (parseLoop (i + 1) s).cursor := by
  cases s with
  | nil => simp [parseLoop]
  | cons d rest => rw [parseLoop]; simp

theorem parseLoop_cursor_wild2 (i : Nat) (s : List Char) :
    (parseLoop i ('?' :: '?' :: s)).cursor = (parseLoop (i + 2) s).cursor := by
  rw [parseLoop]
  simp

theorem parseLoop_cursor_wild1_space (i : Nat) (s : List Char) :
    (parseLoop i ('?' :: ' ' :: s)).cursor = (parseLoop (i + 2) s).cursor := by
  have h := parseLoop_cursor_space (i + 1) s
  rw [parseLoop]
  simp only [show ('?' : Char) ≠ ' ' by decide, show (' ' : Char) ≠ '?' by decide,
    if_false, if_true]
  exact h

theorem parseLoop_cursor_hex (i : Nat) (c d : Char) (s : List Char)
    (h1 : c ≠ ' ') (h2 : c ≠ '?') :
    (parseLoop i (c :: d :: s)).cursor = (parseLoop (i + 2) s).cursor := by
  rw [parseLoop]
  simp [h1, h2]

/-- The cursor after one element followed by a space and more text. -/
theorem parseLoop_cursor_element_space (e : Element) (he : e.WellFormed) (i : Nat)
    (s : List Char) :
    (parseLoop i (e.chars ++ ' ' :: s)).cursor =
      (parseLoop (i + (e.chars.length + 1)) s).cursor := by
  cases e with
  | hex1 d =>
    have hd : isHexDigit d = true := he
    simp only [Element.chars, List.singleton_append, List.length_singleton]
    exact parseLoop_cursor_hex i d ' ' s (isHexDigit_not_space d hd)
      (isHexDigit_not_question d hd)
  | hex2 d1 d2 =>
    obtain ⟨h1, _⟩ : isHexDigit d1 = true ∧ isHexDigit d2 = true := he
    simp only [Element.chars, List.cons_append, List.nil_append, List.length_cons,
      List.length_nil]
    rw [parseLoop_cursor_hex i d1 d2 _ (isHexDigit_not_space d1 h1)
      (isHexDigit_not_question d1 h1), parseLoop_cursor_space]
  | wild1 =>
    simp only [Element.chars, List.singleton_append, List.length_singleton]
    exact parseLoop_cursor_wild1_space i s
  | wild2 =>
    simp only [Element.chars, List.cons_append, List.nil_append, List.length_cons,
      List.length_nil]
    rw [parseLoop_cursor_wild2, parseLoop_cursor_space]

/-- The cursor after the last element of a text: one position beyond the end
of the text for a one-digit hex element, the end of the text otherwise. -/
theorem parseLoop_cursor_element_end (e : Element) (he : e.WellFormed) (i : Nat) :
    (parseLoop i e.chars).cursor = i + e.chars.length + (if e.isHex1 then 1 else 0) := by
  cases e with
  | hex1 d =>
    have hd : isHexDigit d = true := he
    simp only [Element.chars, Element.isHex1, if_true, List.length_singleton]
    rw [parseLoop]
    simp [isHexDigit_not_space d hd, isHexDigit_not_question d hd]
  | hex2 d1 d2 =>
    obtain ⟨h1, _⟩ : isHexDigit d1 = true ∧ isHexDigit d2 = true := he
    simp only [Element.chars, Element.isHex1, Bool.false_eq_true, if_false,
      List.length_cons, List.length_nil]
    rw [parseLoop_cursor_hex i d1 d2 _ (isHexDigit_not_space d1 h1)
      (isHexDigit_not_question d1 h1), parseLoop_cursor_nil]
  | wild1 =>
    simp [Element.chars, Element.isHex1, parseLoop]
  | wild2 =>
    simp only [Element.chars, Element.isHex1, Bool.false_eq_true, if_false,
      List.length_cons, List.length_nil]
    rw [parseLoop_cursor_wild2, parseLoop_cursor_nil]

/-- The last value of the cursor on a text made of elements: the length of
the text, and one more when the text ends in a one-digit hex element. -/
theorem parseLoop_render_cursor (es : List Element) (hwf : ∀ e ∈ es, e.WellFormed) :
    ∀ i, (parseLoop i (render es)).cursor =
      i + (render es).length + (if endsInHex1 es then 1 else 0) := by
  induction es with
  | nil => intro i; simp [render, endsInHex1, parseLoop]
  | cons e es ih =>
    intro i
    have he : e.WellFormed := hwf e (by simp)
    cases es with
    | nil =>
      simp only [render, endsInHex1]
      exact parseLoop_cursor_element_end e he i
    | cons e2 es =>
      have ih2 := ih (fun x hx => hwf x (by simp [hx])) (i + (e.chars.length + 1))
      simp only [render, endsInHex1] at ih2 ⊢
      rw [parseLoop_cursor_element_space e he, ih2]
      simp only [List.length_append, List.length_cons]
      omega

/-! ## Facts about the reads of the scanner -/

/-- Inside the image the lambda dereferences addresses of the image only. -/
theorem compareLoop_reads_inRange (M : Module) (mem : Memory) (Data : Nat)
    (hb : M.m_ModuleBase ≤ Data) (hR : M.m_ModuleBase + M.m_ModuleSize < PTR_RANGE) :
    ∀ (toks : List Nat) (i : Nat),
      Data + i + toks.length ≤ M.m_ModuleBase + M.m_ModuleSize →
      ∀ a ∈ (compareLoop M mem Data i toks).2,
        M.m_ModuleBase ≤ a ∧ a < M.m_ModuleBase + M.m_ModuleSize := by
  intro toks
  induction toks with
  | nil => intro i _ a ha; simp [compareLoop] at ha
  | cons tok rest ih =>
    intro i hlen a ha
    simp only [List.length_cons] at hlen
    have hmod : (Data + i) % PTR_RANGE = Data + i := Nat.mod_eq_of_lt (by omega)
    have hrd : M.readByte mem (Data + i) = some (mem (Data + i) % 256) :=
      readByte_of_inRange M mem _ (by omega) (by omega)
    have hrec := ih (i + 1) (by omega)
    rw [compareLoop] at ha
    simp only [hmod, hrd] at ha
    split_ifs at ha
    · simp only [List.mem_singleton] at ha
      omega
    · simp only [List.mem_cons] at ha
      rcases ha with rfl | ha
      · omega
      · exact hrec a ha
    · simp only [List.mem_cons] at ha
      rcases ha with rfl | ha
      · omega
      · exact hrec a ha

/-- Outside of the wrap-around of the loop bound, the loop dereferences
addresses of the image only. -/
theorem scanLoop_reads_inRange (M : Module) (mem : Memory) (P : List Nat)
    (hR : M.m_ModuleBase + M.m_ModuleSize < PTR_RANGE)
    (hP : P.length ≤ M.m_ModuleBase + M.m_ModuleSize) :
    ∀ (fuel j : Nat), j ≤ M.m_ModuleSize →
      ∀ a ∈ (scanLoop M mem P fuel (M.m_ModuleBase + j)).reads,
        M.m_ModuleBase ≤ a ∧ a < M.m_ModuleBase + M.m_ModuleSize := by
  have hlim : scanLimit M P.length = M.m_ModuleBase + M.m_ModuleSize - P.length :=
    scanLimit_eq M _ hR hP
  intro fuel
  induction fuel with
  | zero => intro j _ a ha; simp [scanLoop] at ha
  | succ fuel ih =>
    intro j hj a ha
    rw [scanLoop] at ha
    by_cases htest : M.m_ModuleBase + j ≤ scanLimit M P.length
    · simp only [htest, if_true] at ha
      have hin : j + P.length ≤ M.m_ModuleSize := by rw [hlim] at htest; omega
      have hcr := compareLoop_reads_inRange M mem (M.m_ModuleBase + j) (by omega) hR P 0
        (by omega)
      have hc1 := compareLoop_at_offset M mem P j hR hin
      cases hcl : compareLoop M mem (M.m_ModuleBase + j) 0 P with
      | mk r rs =>
        rw [hcl] at hcr hc1 ha
        simp only at hcr hc1
        subst hc1
        by_cases hm : MatchesAt M mem P j
        · simp only [hm, decide_True] at ha
          exact hcr a ha
        · simp only [hm, decide_False] at ha
          simp only [List.mem_append] at ha
          rcases ha with ha | ha
          · exact hcr a ha
          · have hpos : 0 < P.length := by
              rcases Nat.eq_zero_or_pos P.length with h0 | h0
              · exact absurd (fun i hi => by omega) hm
              · exact h0
            have hmod : (M.m_ModuleBase + j + 1) % PTR_RANGE = M.m_ModuleBase + (j + 1) :=
              Nat.mod_eq_of_lt (by omega)
            rw [hmod] at ha
            exact ih (j + 1) (by omega) a ha
    · simp [htest] at ha

/-- Outside of the wrap-around of the loop bound, every byte read by
`FindPattern` lies in the image. -/
theorem FindPattern_reads_inRange_of_le (M : Module) (mem : Memory) (P : List Nat)
    (hM : M.WellFormed) (hP : P.length ≤ M.m_ModuleBase + M.m_ModuleSize) :
    ∀ a ∈ (M.FindPattern mem P).reads,
      M.m_ModuleBase ≤ a ∧ a < M.m_ModuleBase + M.m_ModuleSize := by
  obtain ⟨_, _, hR⟩ := hM
  have := scanLoop_reads_inRange M mem P hR hP (M.m_ModuleSize + 2) 0 (by omega)
  simpa [Module.FindPattern] using this

/-- A lambda that ends in the out-of-range branch has dereferenced an address
outside of the image. -/
theorem compareLoop_none_read (M : Module) (mem : Memory) (Data : Nat) :
    ∀ (toks : List Nat) (i : Nat), (compareLoop M mem Data i toks).1 = none →
      ∃ a ∈ (compareLoop M mem Data i toks).2, M.inRange a = false := by
  intro toks
  induction toks with
  | nil => intro i h; simp [compareLoop] at h
  | cons tok rest ih =>
    intro i h
    rw [compareLoop] at h ⊢
    cases hrd : M.readByte mem ((Data + i) % PTR_RANGE) with
    | none =>
      refine ⟨(Data + i) % PTR_RANGE, by simp, ?_⟩
      unfold Module.readByte at hrd
      split_ifs at hrd with hin
      simpa using hin
    | some b =>
      simp only [hrd] at h ⊢
      by_cases h1 : b ≠ tok
      · by_cases h2 : tok ≠ 256
        · simp [h1, h2] at h
        · rw [if_pos h1, if_neg h2] at h ⊢
          obtain ⟨a, ha, hout⟩ := ih (i + 1) h
          exact ⟨a, by simp [ha], hout⟩
      · rw [if_neg h1] at h ⊢
        obtain ⟨a, ha, hout⟩ := ih (i + 1) h
        exact ⟨a, by simp [ha], hout⟩

/-- A run that ends in the out-of-range branch has dereferenced an address
outside of the image. -/
theorem scanLoop_outOfRange_read (M : Module) (mem : Memory) (P : List Nat) :
    ∀ (fuel Data : Nat), (scanLoop M mem P fuel Data).result = Outcome.outOfRange →
      ∃ a ∈ (scanLoop M mem P fuel Data).reads, M.inRange a = false := by
  intro fuel
  induction fuel with
  | zero => intro Data h; simp [scanLoop] at h
  | succ fuel ih =>
    intro Data h
    rw [scanLoop] at h ⊢
    by_cases htest : Data ≤ scanLimit M P.length
    · simp only [htest, if_true] at h ⊢
      have hn := compareLoop_none_read M mem Data P 0
      generalize compareLoop M mem Data 0 P = cr at hn h ⊢
      obtain ⟨r, rs⟩ := cr
      simp only at hn
      cases r with
      | none => exact hn rfl
      | some b =>
        cases b with
        | true => simp at h
        | false =>
          simp only at h ⊢
          obtain ⟨a, ha, hout⟩ := ih _ h
          exact ⟨a, by simp [ha], hout⟩
    · simp [htest] at h


/-! ## Facts about tokens above 256 -/

/-- A pattern with a token above `256` satisfies the match predicate at no
offset: a byte is below `256` and only `256` is the wildcard. -/
theorem not_matchesAt_of_large_token (M : Module) (mem : Memory) (P : List Nat) (k : Nat)
    (h : ∃ t ∈ P, 256 < t) : ¬ MatchesAt M mem P k := by
  obtain ⟨t, ht, hlt⟩ := h
  obtain ⟨i, hi, hget⟩ := List.getElem_of_mem ht
  intro hm
  have := hm i hi
  have hd : P.getD i 0 = t := by
    rw [List.getD_eq_getElem _ _ hi, hget]
  rw [hd] at this
  have hb : M.byte mem (k + i) < 256 := by
    unfold Module.byte
    exact Nat.mod_lt _ (by decide)
  omega

/-- The lambda never returns `true` for a pattern with a token above `256`. -/
theorem compareLoop_ne_true_of_large_token (M : Module) (mem : Memory) (Data : Nat) :
    ∀ (toks : List Nat) (i : Nat), (∃ t ∈ toks, 256 < t) →
      (compareLoop M mem Data i toks).1 ≠ some true := by
  intro toks
  induction toks with
  | nil => intro i h; simp at h
  | cons tok rest ih =>
    intro i h
    rw [compareLoop]
    cases hrd : M.readByte mem ((Data + i) % PTR_RANGE) with
    | none => simp
    | some b =>
      have hb : b < 256 := by
        rw [(readByte_eq_some M mem _ _ hrd).2.2]
        exact Nat.mod_lt _ (by decide)
      simp only []
      by_cases hbig : 256 < tok
      · have h1 : b ≠ tok := by omega
        have h2 : tok ≠ 256 := by omega
        rw [if_pos h1, if_pos h2]
        simp
      · have hrest : ∃ t ∈ rest, 256 < t := by
          obtain ⟨t, ht, hlt⟩ := h
          simp only [List.mem_cons] at ht
          rcases ht with rfl | ht
          · exact absurd hlt hbig
          · exact ⟨t, ht, hlt⟩
        have hrec := ih (i + 1) hrest
        by_cases h1 : b ≠ tok
        · by_cases h2 : tok ≠ 256
          · rw [if_pos h1, if_pos h2]; simp
          · rw [if_pos h1, if_neg h2]; exact hrec
        · rw [if_neg h1]; exact hrec

/-- Outside of the wrap-around of the loop bound, a pattern with a token above
`256` is answered with `nullptr`. -/
theorem FindPattern_large_token_of_le (M : Module) (mem : Memory) (P : List Nat)
    (hM : M.WellFormed) (hP : P.length ≤ M.m_ModuleBase + M.m_ModuleSize)
    (h : ∃ t ∈ P, 256 < t) :
    (M.FindPattern mem P).result = Outcome.ret 0 := by
  rw [FindPattern_nullptr_iff_of_le M mem P hM hP]
  rintro ⟨k, _, hm⟩
  exact not_matchesAt_of_large_token M mem P k h hm

/-! ## Facts about the resolver and the constructor -/

theorem GetModuleBaseAddress_eq (GetModuleHandle : String → Nat) (ModuleName_ : String) :
    GetModuleBaseAddress GetModuleHandle ModuleName_ =
      if GetModuleHandle ModuleName_ = 0 then
        Except.error "ModuleBase is nullptr, couldn\x27t find specified module"
      else Except.ok (GetModuleHandle ModuleName_) := rfl

theorem Module.new_of_null (GetModuleHandle : String → Nat) (headers : Nat → NTHeaders)
    (ModuleName_ : String) (h : GetModuleHandle ModuleName_ = 0) :
    Module.new GetModuleHandle headers ModuleName_ =
      Except.error "ModuleBase is nullptr, couldn\x27t find specified module" := by
  simp [Module.new, GetModuleBaseAddress, h]

theorem Module.new_of_loaded (GetModuleHandle : String → Nat) (headers : Nat → NTHeaders)
    (ModuleName_ : String) (h : GetModuleHandle ModuleName_ ≠ 0) :
    Module.new GetModuleHandle headers ModuleName_ =
      Except.ok ⟨ModuleName_, GetModuleHandle ModuleName_,
        GetModuleSize headers (GetModuleHandle ModuleName_)⟩ := by
  simp [Module.new, GetModuleBaseAddress, h]

/-- A handle that the constructor returns has the address of the loader as
its base, which is not `nullptr`, and the size that `GetModuleSize` finds at
that address. -/
theorem Module.new_eq_ok (GetModuleHandle : String → Nat) (headers : Nat → NTHeaders)
    (ModuleName_ : String) (M : Module)
    (h : Module.new GetModuleHandle headers ModuleName_ = Except.ok M) :
    GetModuleHandle ModuleName_ ≠ 0 ∧
      M = ⟨ModuleName_, GetModuleHandle ModuleName_,
        GetModuleSize headers (GetModuleHandle ModuleName_)⟩ := by
  by_cases h0 : GetModuleHandle ModuleName_ = 0
  · rw [Module.new_of_null _ _ _ h0] at h
    simp at h
  · rw [Module.new_of_loaded _ _ _ h0] at h
    simp only [Except.ok.injEq] at h
    exact ⟨h0, h.symm⟩

/-! ## Facts about the empty pattern -/

/-- The empty pattern is found at the base without a read. -/
theorem FindPattern_nil (M : Module) (mem : Memory)
    (hR : M.m_ModuleBase + M.m_ModuleSize < PTR_RANGE) :
    M.FindPattern mem [] = ⟨Outcome.ret M.m_ModuleBase, []⟩ := by
  have htest : M.m_ModuleBase ≤ scanLimit M 0 := by
    rw [scanLimit_eq M _ hR (Nat.zero_le _)]
    omega
  unfold Module.FindPattern
  rw [scanLoop]
  simp only [List.length_nil, htest, if_true, compareLoop]

/-- A text of spaces only is converted to the empty pattern. -/
theorem parseLoop_spaces (n : Nat) :
    ∀ i, (parseLoop i (List.replicate n ' ')).returned = some [] := by
  induction n with
  | zero => intro i; simp [parseLoop, ParseRun.returned]
  | succ n ih =>
    intro i
    rw [List.replicate_succ, parseLoop_space]
    exact ih (i + 1)

/-! ## The claims about the look-ahead and the cursor -/

/-- C13, at the failing input: with the cursor at distance `i` on a lone `?`
that is the last character of the text (a text of length `i + 1`), the parser
dereferences the positions `i` and `i + 1`, the second being the end of the
text, and pushes one wildcard token; so it does on the text `FC ?` of length
`4`, where position `4` is read. -/
theorem parseLoop_trailing_wildcard_reads (i : Nat) :
    parseLoop i ['?'] = ⟨[256], [i, i + 1], i + 1, true⟩ ∧
      parseLoop 0 "FC ?".toList = ⟨[0xFC, 256], [0, 2, 3, 4], 4, true⟩ ∧
      "FC ?".length = 4 := by
  refine ⟨?_, by decide, by decide⟩
  simp [parseLoop]

/-- C18, at the failing input: on the text `8B 3` of length `4` the loop ends
with its cursor at `5`, beyond the end of the text, without having left
through its test. -/
theorem parseLoop_cursor_oversteps :
    "8B 3".length = 4 ∧
      parseLoop 0 "8B 3".toList = ⟨[0x8B, 0x03], [0, 2, 3], 5, false⟩ := by
  decide

/-! ## The claims about the range of the scan, the handle and special patterns -/

/-- C12, at the failing input: on the 4096-byte image at `0x10000` and the
pattern of `0x11001` wildcards, `FindPattern` dereferences an address that is
not in `[base, base + size)`: the run ends in the out-of-range branch of the
bounds-checked read. -/
theorem FindPattern_reads_outside_image :
    (lowModule.FindPattern zeroMemory longPattern).result = Outcome.outOfRange ∧
      ∃ a ∈ (lowModule.FindPattern zeroMemory longPattern).reads,
        ¬ (lowModule.m_ModuleBase ≤ a ∧
          a < lowModule.m_ModuleBase + lowModule.m_ModuleSize) := by
  have hlen : longPattern.length = 0x11001 := List.length_replicate _ _
  have h := (FindPattern_wrap lowModule zeroMemory longPattern (by decide)
    (by rw [hlen]; decide) (by rw [hlen, PTR_RANGE_eq]; decide)).1
  refine ⟨h, ?_⟩
  obtain ⟨a, ha, hout⟩ := scanLoop_outOfRange_read lowModule zeroMemory longPattern _ _ h
  refine ⟨a, ha, ?_⟩
  intro hin
  simp [Module.inRange, hin.1, hin.2] at hout

/-- C14, counterexample: the constructor makes of `game.exe`, whose headers
lack the signature, a handle of size `0`, and `FindPattern` on that handle
returns the base `0x10000`, not `nullptr`, for the empty pattern and for the
empty text. -/
theorem FindPattern_zero_size_empty_pattern :
    Module.new demoLoader erasedHeaders "game.exe" = Except.ok erasedModule ∧
      erasedModule.m_ModuleSize = 0 ∧
      (erasedModule.FindPattern zeroMemory []).result = Outcome.ret 0x10000 ∧
      (erasedModule.FindPattern_string zeroMemory "").map ScanRun.result =
        some (Outcome.ret 0x10000) ∧
      Outcome.ret 0x10000 ≠ Outcome.ret 0 := by
  refine ⟨rfl, rfl, by decide, by decide, by decide⟩

/-- C14, amended: a handle that the constructor makes of an image whose
headers lack the signature `IMAGE_NT_SIGNATURE` has size `0`; on it
`FindPattern` returns `nullptr` without a read for every non-empty pattern of
at most `m_ModuleBase` tokens and for every text that is converted to such a
pattern, and returns the base for the empty pattern. -/
theorem FindPattern_zero_size (GetModuleHandle : String → Nat) (headers : Nat → NTHeaders)
    (ModuleName_ : String) (M : Module) (mem : Memory)
    (hnew : Module.new GetModuleHandle headers ModuleName_ = Except.ok M)
    (hsig : (headers M.m_ModuleBase).Signature ≠ IMAGE_NT_SIGNATURE)
    (hptr : M.m_ModuleBase < PTR_RANGE) :
    M.m_ModuleSize = 0 ∧
      (∀ P : List Nat, P ≠ [] → P.length ≤ M.m_ModuleBase →
        M.FindPattern mem P = ⟨Outcome.ret 0, []⟩) ∧
      (∀ (text : String) (P : List Nat), ConvertIDAPatternToByteVector text = some P →
        P ≠ [] → P.length ≤ M.m_ModuleBase →
        M.FindPattern_string mem text = some ⟨Outcome.ret 0, []⟩) ∧
      M.FindPattern mem [] = ⟨Outcome.ret M.m_ModuleBase, []⟩ := by
  obtain ⟨hne, hM⟩ := Module.new_eq_ok GetModuleHandle headers ModuleName_ M hnew
  have hbase : M.m_ModuleBase = GetModuleHandle ModuleName_ := by rw [hM]
  have hsize : M.m_ModuleSize = 0 := by
    have : M.m_ModuleSize = GetModuleSize headers M.m_ModuleBase := by rw [hM]
    rw [this]
    simp [GetModuleSize, hsig]
  have hwf : M.WellFormed := ⟨by rw [hbase]; exact hne, by rw [hsize]; decide,
    by rw [hsize]; simpa using hptr⟩
  have hvec : ∀ P : List Nat, P ≠ [] → P.length ≤ M.m_ModuleBase →
      M.FindPattern mem P = ⟨Outcome.ret 0, []⟩ := by
    intro P hP hlen
    apply FindPattern_longer_of_le M mem P hwf
    · rw [hsize]; exact List.length_pos.mpr hP
    · omega
  refine ⟨hsize, hvec, ?_, FindPattern_nil M mem hwf.2.2⟩
  intro text P hconv hP hlen
  simp only [Module.FindPattern_string, hconv, Option.map_some', hvec P hP hlen]

/-- Witness of C14, amended: the handle of `game.exe` and the text `FC E8`. -/
theorem FindPattern_zero_size_witness :
    erasedModule.m_ModuleSize = 0 ∧
      erasedModule.FindPattern_string zeroMemory "FC E8" = some ⟨Outcome.ret 0, []⟩ :=
  have h := FindPattern_zero_size demoLoader erasedHeaders "game.exe" erasedModule zeroMemory
    rfl (by decide) (by rw [PTR_RANGE_eq]; decide)
  ⟨h.1, h.2.2.1 "FC E8" [0xFC, 0xE8] (by decide) (by decide) (by decide)⟩

/-- C15: `GetModuleBaseAddress`, and with it the constructor, throws exactly
when the loader returns `nullptr` for the name; otherwise the address of the
loader is returned unchanged and becomes the base of the handle; when it
throws, the constructor yields no handle. -/
theorem GetModuleBaseAddress_throws_iff (GetModuleHandle : String → Nat)
    (headers : Nat → NTHeaders) (ModuleName_ : String) :
    ((∃ e, GetModuleBaseAddress GetModuleHandle ModuleName_ = Except.error e) ↔
        GetModuleHandle ModuleName_ = 0) ∧
      (GetModuleHandle ModuleName_ ≠ 0 →
        GetModuleBaseAddress GetModuleHandle ModuleName_ =
          Except.ok (GetModuleHandle ModuleName_)) ∧
      ((∃ e, Module.new GetModuleHandle headers ModuleName_ = Except.error e) ↔
        GetModuleHandle ModuleName_ = 0) ∧
      (GetModuleHandle ModuleName_ = 0 →
        ∀ M, Module.new GetModuleHandle headers ModuleName_ ≠ Except.ok M) ∧
      (∀ M, Module.new GetModuleHandle headers ModuleName_ = Except.ok M →
        M.m_ModuleBase = GetModuleHandle ModuleName_ ∧ M.m_ModuleName = ModuleName_ ∧
          M.m_ModuleSize = GetModuleSize headers (GetModuleHandle ModuleName_)) := by
  refine ⟨?_, ?_, ?_, ?_, ?_⟩
  · rw [GetModuleBaseAddress_eq]
    by_cases h : GetModuleHandle ModuleName_ = 0 <;> simp [h]
  · intro h
    rw [GetModuleBaseAddress_eq, if_neg h]
  · by_cases h : GetModuleHandle ModuleName_ = 0
    · simp [Module.new_of_null _ headers _ h, h]
    · simp [Module.new_of_loaded _ headers _ h, h]
  · intro h M
    rw [Module.new_of_null _ headers _ h]
    simp
  · intro M hM
    obtain ⟨_, rfl⟩ := Module.new_eq_ok GetModuleHandle headers ModuleName_ M hM
    exact ⟨rfl, rfl, rfl⟩

/-- C19: on a well-formed handle, whatever its size, `FindPattern` with the
empty pattern returns the base, which is not `nullptr`, without a read; and so
does the string overload with the empty text and with a text of spaces
only. -/
theorem FindPattern_empty_pattern (M : Module) (mem : Memory) (hM : M.WellFormed) :
    M.FindPattern mem [] = ⟨Outcome.ret M.m_ModuleBase, []⟩ ∧
      Outcome.ret M.m_ModuleBase ≠ Outcome.ret 0 ∧
      M.FindPattern_string mem "" = some ⟨Outcome.ret M.m_ModuleBase, []⟩ ∧
      ∀ n, M.FindPattern_string mem (String.mk (List.replicate n ' ')) =
        some ⟨Outcome.ret M.m_ModuleBase, []⟩ := by
  have hnil := FindPattern_nil M mem hM.2.2
  refine ⟨hnil, ?_, ?_, ?_⟩
  · have := hM.1
    simpa using this
  · have hconv : ConvertIDAPatternToByteVector "" = some [] := by decide
    simp only [Module.FindPattern_string, hconv, Option.map_some', hnil]
  · intro n
    have hconv : ConvertIDAPatternToByteVector (String.mk (List.replicate n ' ')) = some [] := by
      rw [ConvertIDAPatternToByteVector_mk]
      exact parseLoop_spaces n 0
    simp only [Module.FindPattern_string, hconv, Option.map_some', hnil]

/-- Witness of C19: the handle of size `0` at `0x10000` and the text of three
spaces. -/
theorem FindPattern_empty_pattern_witness :
    erasedModule.FindPattern zeroMemory [] = ⟨Outcome.ret 0x10000, []⟩ ∧
      erasedModule.FindPattern_string zeroMemory "   " = some ⟨Outcome.ret 0x10000, []⟩ :=
  have h := FindPattern_empty_pattern erasedModule zeroMemory (by decide)
  ⟨h.1, h.2.2.2 3⟩

/-- C20, at the failing input: the pattern of `0x11001` tokens `257` contains
a token above `256` and satisfies the match predicate at no offset, and yet
`FindPattern` on the 4096-byte image at `0x10000` does not return `nullptr`:
the loop bound wraps around and the run ends with a read outside of the
image. -/
theorem FindPattern_large_token_not_nullptr :
    (∃ t ∈ largeTokenPattern, 256 < t) ∧
      (∀ k, ¬ MatchesAt lowModule zeroMemory largeTokenPattern k) ∧
      (lowModule.FindPattern zeroMemory largeTokenPattern).result = Outcome.outOfRange ∧
      (lowModule.FindPattern zeroMemory largeTokenPattern).result ≠ Outcome.ret 0 := by
  have hlen : largeTokenPattern.length = 0x11001 := List.length_replicate _ _
  have hbig : ∃ t ∈ largeTokenPattern, 256 < t :=
    ⟨257, List.mem_replicate.mpr ⟨by decide, rfl⟩, by decide⟩
  have h := (FindPattern_wrap lowModule zeroMemory largeTokenPattern (by decide)
    (by rw [hlen]; decide) (by rw [hlen, PTR_RANGE_eq]; decide)).1
  exact ⟨hbig, fun k => not_matchesAt_of_large_token _ _ _ k hbig, h, by rw [h]; decide⟩

/-! ## Facts about white space other than the space -/

theorem isspace_range (c : Char) (hc : isspace c = true) :
    c.toNat = 32 ∨ (9 ≤ c.toNat ∧ c.toNat ≤ 13) := by
  unfold isspace at hc
  simp only [Bool.or_eq_true, Bool.and_eq_true, decide_eq_true_eq] at hc
  exact hc

theorem isspace_not_question (c : Char) (hc : isspace c = true) : c ≠ '?' := by
  rintro rfl; revert hc; decide

theorem isspace_not_hexDigit (c : Char) (hc : isspace c = true) : hexDigitVal c = none := by
  have hr := isspace_range c hc
  unfold hexDigitVal
  rw [if_neg (by omega), if_neg (by omega), if_neg (by omega)]

/-- The digits of `strtol` end at a character that is not a base-16 digit. -/
theorem strtolDigits_stop (c : Char) (s : List Char) (acc : Nat)
    (hc : hexDigitVal c = none) : strtolDigits (c :: s) acc = acc := by
  rw [strtolDigits, hc]

/-- A two-digit element followed by a character that is not a base-16 digit
is converted to its base-16 value. -/
theorem strtol_hex2_stop (d1 d2 c : Char) (s : List Char) (h1 : isHexDigit d1 = true)
    (h2 : isHexDigit d2 = true) (hc : hexDigitVal c = none) :
    toUInt16 (strtol (d1 :: d2 :: c :: s)) =
      16 * (hexDigitVal d1).getD 0 + (hexDigitVal d2).getD 0 := by
  obtain ⟨v1, hv1, hlt1⟩ := hexDigitVal_of_isHexDigit d1 h1
  obtain ⟨v2, hv2, hlt2⟩ := hexDigitVal_of_isHexDigit d2 h2
  have hval : strtolDigits (d1 :: d2 :: c :: s) 0 = 16 * v1 + v2 := by
    rw [strtolDigits, hv1]
    simp only [Nat.zero_mul, Nat.zero_add]
    rw [strtolDigits, hv2]
    simp only []
    rw [strtolDigits_stop c s _ hc]
    omega
  have hmark : strtolSkipRadixMark (d1 :: d2 :: c :: s) = d1 :: d2 :: c :: s := by
    rw [strtolSkipRadixMark]
    simp [isHexDigit_not_x d2 h2]
  rw [strtol_of_digits d1 (d2 :: c :: s) _ h1 hmark hval (by omega), hv1, hv2]
  rfl

/-- White space followed by `?` is converted to `0` by `strtol`. -/
theorem strtol_space_question (c : Char) (s : List Char) (hc : isspace c = true) :
    toUInt16 (strtol (c :: '?' :: s)) = 0 := by
  have hskip : strtolSkipSpace (c :: '?' :: s) = '?' :: s := by
    rw [strtolSkipSpace, hc, if_pos rfl, strtolSkipSpace]
    simp [show isspace '?' = false by decide]
  have hmark : strtolSkipRadixMark ('?' :: s) = '?' :: s := by
    cases s with
    | nil => rfl
    | cons x r => rw [strtolSkipRadixMark]; simp
  have hdig : strtolDigits ('?' :: s) 0 = 0 :=
    strtolDigits_stop '?' s 0 (by decide)
  unfold strtol
  simp only [hskip, List.head?_cons, Option.some.injEq, show ('?' : Char) ≠ '-' by decide,
    show ('?' : Char) ≠ '+' by decide, or_self, if_false, decide_False, hmark, hdig]
  decide

/-- The parser on one plain element followed by a character that is neither
`?` nor a base-16 digit: the token of the element is pushed and the cursor is
on that character. -/
theorem parseLoop_element_stop (e : Element) (he : IsPlainElement e) (c : Char)
    (hq : c ≠ '?') (hc : hexDigitVal c = none) (i : Nat) (s : List Char) :
    (parseLoop i (e.chars ++ c :: s)).returned =
      (parseLoop (i + e.chars.length) (c :: s)).returned.map (fun v => e.token :: v) := by
  obtain ⟨hwf, h2⟩ := he
  cases e with
  | hex1 d => simp [Element.isTwoDigitOrWild] at h2
  | hex2 d1 d2 =>
    obtain ⟨h1, h2⟩ : isHexDigit d1 = true ∧ isHexDigit d2 = true := hwf
    simp only [Element.chars, Element.token, List.cons_append, List.nil_append,
      List.length_cons, List.length_nil]
    rw [parseLoop_hex i d1 d2 _ (isHexDigit_not_space d1 h1) (isHexDigit_not_question d1 h1),
      strtol_hex2_stop d1 d2 c s h1 h2 hc]
  | wild1 =>
    simp only [Element.chars, Element.token, List.singleton_append, List.length_singleton]
    rw [parseLoop]
    simp only [show ('?' : Char) ≠ ' ' by decide, hq, if_false, if_true, ParseRun.returned]
    split_ifs <;> simp
  | wild2 =>
    simp only [Element.chars, Element.token, List.cons_append, List.nil_append,
      List.length_cons, List.length_nil]
    rw [parseLoop_wild2]

/-- The parser on a text of plain elements followed by a character that is
neither `?` nor a base-16 digit: the tokens of the elements are pushed and the
cursor is on that character. -/
theorem parseLoop_render_stop (es : List Element) (hes : ∀ e ∈ es, IsPlainElement e)
    (c : Char) (hq : c ≠ '?') (hc : hexDigitVal c = none) (s : List Char) :
    ∀ i, (parseLoop i (render es ++ c :: s)).returned =
      (parseLoop (i + (render es).length) (c :: s)).returned.map
        (fun v => es.map Element.token ++ v) := by
  induction es with
  | nil => intro i; simp [render]
  | cons e es ih =>
    intro i
    have he : IsPlainElement e := hes e (by simp)
    cases es with
    | nil =>
      simp only [render, List.map_cons, List.map_nil, List.singleton_append]
      exact parseLoop_element_stop e he c hq hc i s
    | cons e2 es =>
      have ih2 := ih (fun x hx => hes x (by simp [hx])) (i + (e.chars.length + 1))
      simp only [render, List.append_assoc, List.cons_append] at ih2 ⊢
      rw [parseLoop_element_space e he.1, ih2, Option.map_map]
      simp only [List.length_append, List.length_cons, List.map_cons]
      have hidx : i + (e.chars.length + 1) + (render (e2 :: es)).length =
          i + (e.chars.length + ((render (e2 :: es)).length + 1)) := by omega
      rw [hidx]
      rfl

theorem endsInHex1_of_plain (es : List Element) (hes : ∀ e ∈ es, IsPlainElement e) :
    endsInHex1 es = false :=
  endsInHex1_of_twoDigitOrWild es (fun e he => (hes e he).2)

/-- The parser on a text of plain elements returns the tokens of the
elements. -/
theorem parseLoop_render_plain (es : List Element) (hes : ∀ e ∈ es, IsPlainElement e)
    (i : Nat) : (parseLoop i (render es)).returned = some (es.map Element.token) := by
  rw [parseLoop_render es (fun e he => (hes e he).1) i, endsInHex1_of_plain es hes]
  rfl

/-- The parser started on a white-space character other than the space, in
front of a text of plain elements, does not return the tokens of the
elements. -/
theorem parseLoop_space_char_render (c : Char) (hc : isspace c = true) (hns : c ≠ ' ')
    (es : List Element) (hes : ∀ e ∈ es, IsPlainElement e) (hne : es ≠ []) (i : Nat) :
    (parseLoop i (c :: render es)).returned ≠ some (es.map Element.token) := by
  have hq := isspace_not_question c hc
  cases es with
  | nil => exact absurd rfl hne
  | cons e rest =>
    have he : IsPlainElement e := hes e (by simp)
    have hrest : ∀ x ∈ rest, IsPlainElement x := fun x hx => hes x (by simp [hx])
    obtain ⟨hwf, h2⟩ := he
    cases rest with
    | nil =>
      simp only [render, List.map_cons, List.map_nil]
      cases e with
      | hex1 d => simp [Element.isTwoDigitOrWild] at h2
      | hex2 d1 d2 =>
        obtain ⟨_, hd2⟩ : isHexDigit d1 = true ∧ isHexDigit d2 = true := hwf
        simp only [Element.chars]
        rw [parseLoop_hex i c d1 _ hns hq,
          parseLoop_hex_end _ d2 (isHexDigit_not_space d2 hd2) (isHexDigit_not_question d2 hd2)]
        simp
      | wild1 =>
        simp only [Element.chars, Element.token]
        rw [parseLoop_hex i c '?' _ hns hq, strtol_space_question c [] hc]
        simp [parseLoop, ParseRun.returned]
      | wild2 =>
        simp only [Element.chars, Element.token]
        rw [parseLoop_hex i c '?' _ hns hq, parseLoop_wild1_end]
        simp
    | cons e2 rest =>
      have hR := parseLoop_render_plain (e2 :: rest) hrest
      simp only [render, List.map_cons]
      cases e with
      | hex1 d => simp [Element.isTwoDigitOrWild] at h2
      | hex2 d1 d2 =>
        obtain ⟨_, hd2⟩ : isHexDigit d1 = true ∧ isHexDigit d2 = true := hwf
        simp only [Element.chars, List.cons_append, List.nil_append]
        rw [parseLoop_hex i c d1 _ hns hq,
          parseLoop_hex _ d2 ' ' _ (isHexDigit_not_space d2 hd2)
            (isHexDigit_not_question d2 hd2), hR]
        simp
      | wild1 =>
        simp only [Element.chars, Element.token, List.singleton_append]
        rw [parseLoop_hex i c '?' _ hns hq, strtol_space_question c _ hc, parseLoop_space, hR]
        simp
      | wild2 =>
        simp only [Element.chars, Element.token, List.cons_append, List.nil_append]
        rw [parseLoop_hex i c '?' _ hns hq, parseLoop_wild1_space, hR]
        simp


/-! ## The claims about hex runs and white space -/

/-- C16, counterexample: on the text `ABC` the parser pushes the two tokens
`ABC` and `0C` and oversteps the end of the text, so that the single token
`ABC` is not returned; and the run `ABCD` contributes the two tokens `ABCD`
and `CD`. -/
theorem hex_run_not_consumed_whole :
    parseLoop 0 "ABC".toList = ⟨[0xABC, 0x0C], [0, 2], 4, false⟩ ∧
      ConvertIDAPatternToByteVector "ABC" ≠ some [0xABC] ∧
      ConvertIDAPatternToByteVector "ABCD" = some [0xABCD, 0xCD] := by
  decide

/-- C16, amended: when the parser meets a character that is neither a space
nor `?` and is not the last character of the text, it pushes one token and
resumes scanning two characters further on, whatever the length of the hex
run; the token is the base-16 value of the run for two digits followed by the
end of the text or a space, and for one digit followed by a space. -/
theorem hex_run_steps_two (i : Nat) (c d : Char) (s : List Char)
    (h1 : c ≠ ' ') (h2 : c ≠ '?') :
    (∃ tok, (parseLoop i (c :: d :: s)).ByteBuffer =
        tok :: (parseLoop (i + 2) s).ByteBuffer ∧
        (isHexDigit c = true → isHexDigit d = true → EndsRun s →
          tok = 16 * (hexDigitVal c).getD 0 + (hexDigitVal d).getD 0) ∧
        (isHexDigit c = true → d = ' ' → tok = (hexDigitVal c).getD 0)) ∧
      (parseLoop i (c :: d :: s)).cursor = (parseLoop (i + 2) s).cursor ∧
      (parseLoop i (c :: d :: s)).finished = (parseLoop (i + 2) s).finished := by
  refine ⟨⟨toUInt16 (strtol (c :: d :: s)), ?_, ?_, ?_⟩, parseLoop_cursor_hex i c d s h1 h2, ?_⟩
  · rw [parseLoop]; simp [h1, h2]
  · intro hc hd hs
    exact strtol_hex2 c d s hc hd hs
  · rintro hc rfl
    exact strtol_hex1 c (' ' :: s) hc (Or.inr ⟨s, rfl⟩)
  · rw [parseLoop]; simp [h1, h2]

/-- Witness of C16, amended: the run `ABCD` at the start of a text, and the
text `A BC`, which is parsed to the tokens `0A` and `BC`. -/
theorem hex_run_steps_two_witness :
    ((parseLoop 0 ['A', 'B', 'C', 'D']).cursor = (parseLoop 2 ['C', 'D']).cursor ∧
        (parseLoop 0 ['A', 'B', 'C', 'D']).finished = (parseLoop 2 ['C', 'D']).finished) ∧
      ConvertIDAPatternToByteVector "A BC" = some [0x0A, 0xBC] :=
  ⟨(hex_run_steps_two 0 'A' 'B' ['C', 'D'] (by decide) (by decide)).2, by decide⟩

/-- C17, counterexample: the text `FC`, tab, `E8` is not parsed to the tokens
`FC` and `E8` that `FC E8` is parsed to: the tab is taken for the start of a
hex run, the tokens `FC`, `E8` and `08` are pushed and the cursor oversteps
the end of the text. -/
theorem tab_does_not_separate :
    parseLoop 0 "FC\tE8".toList = ⟨[0xFC, 0xE8, 0x08], [0, 2, 4], 6, false⟩ ∧
      ConvertIDAPatternToByteVector "FC\tE8" ≠ some [0xFC, 0xE8] ∧
      ConvertIDAPatternToByteVector "FC E8" = some [0xFC, 0xE8] := by
  decide

/-- C17, amended: only the space separates elements.  For texts `es1` and
`es2` of two-digit hex elements and wildcards, `es2` not empty, the text made
of `es1`, one space and `es2` is parsed to one token an element, in order; with
a tab, a newline or any other white-space character that is not the space in
the place of that space, the parser does not return that token sequence. -/
theorem only_space_separates (es1 es2 : List Element) (c : Char)
    (h1 : ∀ e ∈ es1, IsPlainElement e) (h2 : ∀ e ∈ es2, IsPlainElement e)
    (hne : es2 ≠ []) (hc : isspace c = true) (hns : c ≠ ' ') :
    ConvertIDAPatternToByteVector (String.mk (render es1 ++ ' ' :: render es2)) =
        some ((es1 ++ es2).map Element.token) ∧
      ConvertIDAPatternToByteVector (String.mk (render es1 ++ c :: render es2)) ≠
        some ((es1 ++ es2).map Element.token) := by
  constructor
  · rw [ConvertIDAPatternToByteVector_mk,
      parseLoop_render_stop es1 h1 ' ' (by decide) (by decide), parseLoop_space,
      parseLoop_render_plain es2 h2]
    simp
  · rw [ConvertIDAPatternToByteVector_mk,
      parseLoop_render_stop es1 h1 c (isspace_not_question c hc) (isspace_not_hexDigit c hc)]
    intro h
    have hno := parseLoop_space_char_render c hc hns es2 h2 hne (0 + (render es1).length)
    cases hr : (parseLoop (0 + (render es1).length) (c :: render es2)).returned with
    | none => rw [hr] at h; simp at h
    | some v =>
      rw [hr] at h hno
      simp only [Option.map_some', Option.some.injEq, List.map_append] at h
      exact hno (congrArg some (List.append_cancel_left h))

/-- Witness of C17, amended: `FC` and `E8` with a space and with a tab between
them. -/
theorem only_space_separates_witness :
    (String.mk (render [Element.hex2 'F' 'C'] ++ ' ' :: render [Element.hex2 'E' '8']) = "FC E8" ∧
        String.mk (render [Element.hex2 'F' 'C'] ++ '\t' :: render [Element.hex2 'E' '8']) =
          "FC\tE8") ∧
      ConvertIDAPatternToByteVector
          (String.mk (render [Element.hex2 'F' 'C'] ++ ' ' :: render [Element.hex2 'E' '8'])) =
        some (([Element.hex2 'F' 'C'] ++ [Element.hex2 'E' '8']).map Element.token) ∧
      ConvertIDAPatternToByteVector
          (String.mk (render [Element.hex2 'F' 'C'] ++ '\t' :: render [Element.hex2 'E' '8'])) ≠
        some (([Element.hex2 'F' 'C'] ++ [Element.hex2 'E' '8']).map Element.token) :=
  ⟨⟨by decide, by decide⟩,
    only_space_separates [Element.hex2 'F' 'C'] [Element.hex2 'E' '8'] '\t'
      (by decide) (by decide) (by decide) (by decide) (by decide)⟩

/-! ## Facts about texts without spaces -/

theorem removeSpaces_chars (e : Element) (he : e.WellFormed) :
    removeSpaces e.chars = e.chars := by
  cases e with
  | hex1 d =>
    have hd : isHexDigit d = true := he
    simp [removeSpaces, Element.chars, isHexDigit_not_space d hd]
  | hex2 d1 d2 =>
    obtain ⟨h1, h2⟩ : isHexDigit d1 = true ∧ isHexDigit d2 = true := he
    simp [removeSpaces, Element.chars, isHexDigit_not_space d1 h1, isHexDigit_not_space d2 h2]
  | wild1 => decide
  | wild2 => decide

theorem removeSpaces_render_cons (e e2 : Element) (es : List Element) (he : e.WellFormed) :
    removeSpaces (render (e :: e2 :: es)) = e.chars ++ removeSpaces (render (e2 :: es)) := by
  have h := removeSpaces_chars e he
  simp only [removeSpaces, render, List.filter_append, List.filter_cons] at h ⊢
  rw [h]
  simp

/-- The first character of a text of plain elements without its spaces: `?`
for a wildcard, a base-16 digit for a hex element. -/
theorem removeSpaces_render_head (e : Element) (es : List Element)
    (hes : ∀ x ∈ e :: es, IsPlainElement x) :
    ∃ c s, removeSpaces (render (e :: es)) = c :: s ∧
      (e.isWild = true → c = '?') ∧ (e.isWild = false → isHexDigit c = true) := by
  have he : IsPlainElement e := hes e (by simp)
  have hshape : ∃ c t, e.chars = c :: t ∧
      (e.isWild = true → c = '?') ∧ (e.isWild = false → isHexDigit c = true) := by
    obtain ⟨hwf, h2⟩ := he
    cases e with
    | hex1 d => simp [Element.isTwoDigitOrWild] at h2
    | hex2 d1 d2 =>
      exact ⟨d1, [d2], rfl, by simp [Element.isWild], fun _ => hwf.1⟩
    | wild1 => exact ⟨'?', [], rfl, fun _ => rfl, by simp [Element.isWild]⟩
    | wild2 => exact ⟨'?', ['?'], rfl, fun _ => rfl, by simp [Element.isWild]⟩
  obtain ⟨c, t, hch, hw, hh⟩ := hshape
  cases es with
  | nil =>
    refine ⟨c, t, ?_, hw, hh⟩
    simp only [render]
    rw [removeSpaces_chars e he.1, hch]
  | cons e2 es =>
    refine ⟨c, t ++ removeSpaces (render (e2 :: es)), ?_, hw, hh⟩
    rw [removeSpaces_render_cons e e2 es he.1, hch]
    rfl

/-- The parser on one plain element followed, without a space, by a character
that is not `?` after a wildcard and not a base-16 digit after a hex
element. -/
theorem parseLoop_element_then (e : Element) (he : IsPlainElement e) (c : Char)
    (hq : e.isWild = true → c ≠ '?') (hc : e.isWild = false → hexDigitVal c = none)
    (i : Nat) (s : List Char) :
    (parseLoop i (e.chars ++ c :: s)).returned =
      (parseLoop (i + e.chars.length) (c :: s)).returned.map (fun v => e.token :: v) := by
  obtain ⟨hwf, h2⟩ := he
  cases e with
  | hex1 d => simp [Element.isTwoDigitOrWild] at h2
  | hex2 d1 d2 =>
    obtain ⟨h1, h2⟩ : isHexDigit d1 = true ∧ isHexDigit d2 = true := hwf
    simp only [Element.chars, Element.token, List.cons_append, List.nil_append,
      List.length_cons, List.length_nil]
    rw [parseLoop_hex i d1 d2 _ (isHexDigit_not_space d1 h1) (isHexDigit_not_question d1 h1),
      strtol_hex2_stop d1 d2 c s h1 h2 (hc rfl)]
  | wild1 =>
    have hq2 : c ≠ '?' := hq rfl
    simp only [Element.chars, Element.token, List.singleton_append, List.length_singleton]
    rw [parseLoop]
    simp only [show ('?' : Char) ≠ ' ' by decide, hq2, if_false, if_true, ParseRun.returned]
    split_ifs <;> simp
  | wild2 =>
    simp only [Element.chars, Element.token, List.cons_append, List.nil_append,
      List.length_cons, List.length_nil]
    rw [parseLoop_wild2]

/-- The parser on a text of alternating hex elements and wildcards without
its spaces returns the tokens of the elements. -/
theorem parseLoop_removeSpaces_render (es : List Element)
    (hes : ∀ e ∈ es, IsPlainElement e) (halt : alternates es = true) :
    ∀ i, (parseLoop i (removeSpaces (render es))).returned = some (es.map Element.token) := by
  induction es with
  | nil => intro i; simp [render, removeSpaces, parseLoop, ParseRun.returned]
  | cons e es ih =>
    intro i
    have he : IsPlainElement e := hes e (by simp)
    cases es with
    | nil =>
      simp only [render, List.map_cons, List.map_nil]
      rw [removeSpaces_chars e he.1, parseLoop_element_end e he.1 i]
      have : e.isHex1 = false := by
        have := he.2
        cases e <;> simp_all [Element.isHex1, Element.isTwoDigitOrWild]
      simp [this]
    | cons e2 es =>
      have hes2 : ∀ x ∈ e2 :: es, IsPlainElement x := fun x hx => hes x (by simp [hx])
      simp only [alternates, Bool.and_eq_true, bne_iff_ne, ne_eq] at halt
      obtain ⟨c, s, hcs, hw, hh⟩ := removeSpaces_render_head e2 es hes2
      have ih2 := ih hes2 halt.2 (i + e.chars.length)
      rw [removeSpaces_render_cons e e2 es he.1]
      rw [hcs] at ih2 ⊢
      rw [parseLoop_element_then e he c ?_ ?_ i s, ih2]
      · simp
      · intro hwild
        have h2w : e2.isWild = false := by
          cases h : e2.isWild with
          | false => rfl
          | true => exact absurd (hwild.trans h.symm) halt.1
        exact isHexDigit_not_question c (hh h2w)
      · intro hhex
        have h2w : e2.isWild = true := by
          cases h : e2.isWild with
          | true => rfl
          | false => exact absurd (hhex.trans h.symm) halt.1
        rw [hw h2w]
        decide

/-! ## The claim about omitted spaces -/

/-- Where hex elements of two digits and wildcards alternate, the spaces
between the elements can be omitted: the parser returns the same token
sequence, one token an element, for the text and for the text with all spaces
removed. -/
theorem spaces_omitted_between_hex_and_wildcard (es : List Element)
    (hes : ∀ e ∈ es, IsPlainElement e) (halt : alternates es = true) :
    ConvertIDAPatternToByteVector (String.mk (removeSpaces (render es))) =
        ConvertIDAPatternToByteVector (signatureText es) ∧
      ConvertIDAPatternToByteVector (signatureText es) = some (es.map Element.token) := by
  have h1 : ConvertIDAPatternToByteVector (signatureText es) = some (es.map Element.token) := by
    unfold signatureText
    rw [ConvertIDAPatternToByteVector_mk]
    exact parseLoop_render_plain es hes 0
  refine ⟨?_, h1⟩
  rw [h1, ConvertIDAPatternToByteVector_mk]
  exact parseLoop_removeSpaces_render es hes halt 0

/-- An instance of `spaces_omitted_between_hex_and_wildcard`: `FC ? E8 ?? 3D`
and `FC?E8??3D` are both parsed to the tokens `FC 256 E8 256 3D`. -/
theorem spaces_omitted_between_hex_and_wildcard_witness :
    (signatureText sigAlternating = "FC ? E8 ?? 3D" ∧
        String.mk (removeSpaces (render sigAlternating)) = "FC?E8??3D") ∧
      ConvertIDAPatternToByteVector (String.mk (removeSpaces (render sigAlternating))) =
        ConvertIDAPatternToByteVector (signatureText sigAlternating) ∧
      ConvertIDAPatternToByteVector (signatureText sigAlternating) =
        some [0xFC, 256, 0xE8, 256, 0x3D] :=
  ⟨⟨by decide, by decide⟩,
    spaces_omitted_between_hex_and_wildcard sigAlternating (by decide) (by decide)⟩

/-- C11, at the failing input: `FC E8` with its space removed is `FCE8`, and
`FCE8` is parsed to the two tokens `FCE8` and `E8`, not to the tokens `FC` and
`E8` that `FC E8` is parsed to: the hex branch hands the whole run of digits
to `strtol` and then steps over two characters. -/
theorem ConvertIDAPatternToByteVector_spaces_omitted :
    String.mk (removeSpaces "FC E8".toList) = "FCE8" ∧
      ConvertIDAPatternToByteVector "FC E8" = some [0xFC, 0xE8] ∧
      ConvertIDAPatternToByteVector "FCE8" = some [0xFCE8, 0xE8] ∧
      ConvertIDAPatternToByteVector "FCE8" ≠ ConvertIDAPatternToByteVector "FC E8" := by
  decide

/-! ## Facts about the scan on flat memory -/

/-- Where the bounds-checked lambda returns, the lambda on flat memory returns
the same. -/
theorem compareLoopFlat_of_some (M : Module) (mem : Memory) (Data : Nat) :
    ∀ (toks : List Nat) (i : Nat) (b : Bool),
      (compareLoop M mem Data i toks).1 = some b → compareLoopFlat mem Data i toks = b := by
  intro toks
  induction toks with
  | nil => intro i b h; simpa [compareLoop, compareLoopFlat] using h
  | cons tok rest ih =>
    intro i b h
    rw [compareLoop] at h
    rw [compareLoopFlat]
    cases hrd : M.readByte mem ((Data + i) % PTR_RANGE) with
    | none => simp [hrd] at h
    | some v =>
      have hv := (readByte_eq_some M mem _ _ hrd).2.2
      simp only [hrd] at h
      simp only [← hv]
      by_cases h1 : v ≠ tok
      · by_cases h2 : tok ≠ 256
        · rw [if_pos h1, if_pos h2] at h
          rw [if_pos h1, if_pos h2]
          simpa using h
        · rw [if_pos h1, if_neg h2] at h
          rw [if_pos h1, if_neg h2]
          exact ih (i + 1) b h
      · rw [if_neg h1] at h
        rw [if_neg h1]
        exact ih (i + 1) b h

/-- Where the bounds-checked run returns a pointer, the run on flat memory
returns the same pointer. -/
theorem scanLoopFlat_of_ret (M : Module) (mem : Memory) (P : List Nat) :
    ∀ (fuel Data a : Nat), (scanLoop M mem P fuel Data).result = Outcome.ret a →
      scanLoopFlat M mem P fuel Data = some a := by
  intro fuel
  induction fuel with
  | zero => intro Data a h; simp [scanLoop] at h
  | succ fuel ih =>
    intro Data a h
    rw [scanLoopFlat]
    by_cases htest : Data ≤ scanLimit M P.length
    · rw [if_pos htest]
      cases hc : (compareLoop M mem Data 0 P).1 with
      | none => rw [scanLoop_fault M mem P fuel _ htest hc] at h; simp at h
      | some b =>
        have hflat := compareLoopFlat_of_some M mem Data P 0 b hc
        cases b with
        | true =>
          rw [scanLoop_found M mem P fuel _ htest hc] at h
          simp only [Outcome.ret.injEq] at h
          rw [hflat, if_pos rfl, h]
        | false =>
          rw [scanLoop_next M mem P fuel _ htest hc] at h
          simp only [hflat, Bool.false_eq_true, if_false]
          exact ih _ a h
    · rw [scanLoop_exit M mem P fuel _ htest] at h
      simp only [Outcome.ret.injEq] at h
      rw [if_neg htest, h]

/-- Outside of the wrap-around of the loop bound, the run on flat memory
returns what the bounds-checked run returns. -/
theorem scanLoopFlat_eq_some (M : Module) (mem : Memory) (P : List Nat)
    (hR : M.m_ModuleBase + M.m_ModuleSize < PTR_RANGE)
    (hP : P.length ≤ M.m_ModuleBase + M.m_ModuleSize) :
    ∀ (fuel j a : Nat), j ≤ M.m_ModuleSize →
      scanLoopFlat M mem P fuel (M.m_ModuleBase + j) = some a →
      (scanLoop M mem P fuel (M.m_ModuleBase + j)).result = Outcome.ret a := by
  have hlim : scanLimit M P.length = M.m_ModuleBase + M.m_ModuleSize - P.length :=
    scanLimit_eq M _ hR hP
  intro fuel
  induction fuel with
  | zero => intro j a _ h; simp [scanLoopFlat] at h
  | succ fuel ih =>
    intro j a hj h
    rw [scanLoopFlat] at h
    by_cases htest : M.m_ModuleBase + j ≤ scanLimit M P.length
    · rw [if_pos htest] at h
      have hin : j + P.length ≤ M.m_ModuleSize := by rw [hlim] at htest; omega
      have hc := compareLoop_at_offset M mem P j hR hin
      have hflat := compareLoopFlat_of_some M mem _ P 0 _ hc
      by_cases hm : MatchesAt M mem P j
      · simp only [hm, decide_True] at hc hflat
        simp only [hflat, if_true, Option.some.injEq] at h
        rw [scanLoop_found M mem P fuel _ htest hc, h]
      · simp only [hm, decide_False] at hc hflat
        simp only [hflat, Bool.false_eq_true, if_false] at h
        have hpos : 0 < P.length := by
          rcases Nat.eq_zero_or_pos P.length with h0 | h0
          · exact absurd (fun i hi => by omega) hm
          · exact h0
        have hmod : (M.m_ModuleBase + j + 1) % PTR_RANGE = M.m_ModuleBase + (j + 1) :=
          Nat.mod_eq_of_lt (by omega)
        rw [scanLoop_next M mem P fuel _ htest hc, hmod]
        rw [hmod] at h
        exact ih (j + 1) a (by omega) h
    · rw [if_neg htest] at h
      simp only [Option.some.injEq] at h
      rw [scanLoop_exit M mem P fuel _ htest, h]

/-- Outside of the wrap-around of the loop bound, whatever non-null pointer
`FindPattern` returns on flat memory is a start position inside the image at
which the pattern matches. -/
theorem FindPatternFlat_sound_of_le (M : Module) (mem : Memory) (P : List Nat)
    (fuel a : Nat) (hM : M.WellFormed)
    (hP : P.length ≤ M.m_ModuleBase + M.m_ModuleSize)
    (hres : M.FindPatternFlat mem P fuel = some a) (ha : a ≠ 0) :
    (M.m_ModuleBase ≤ a ∧ a ≤ M.m_ModuleBase + M.m_ModuleSize - P.length ∧
        P.length ≤ M.m_ModuleSize) ∧
      ∀ i, i < P.length → mem (a + i) % 256 = P.getD i 0 ∨ P.getD i 0 = 256 := by
  obtain ⟨_, _, hR⟩ := hM
  have hret := scanLoopFlat_eq_some M mem P hR hP fuel 0 a (Nat.zero_le _)
    (by simpa [Module.FindPatternFlat] using hres)
  obtain ⟨k, rfl, _, hk, hm⟩ := scanLoop_sound M mem P hR fuel 0 a (Nat.zero_le _) hret ha
  refine ⟨⟨by omega, by omega, by omega⟩, ?_⟩
  intro i hi
  have := hm i hi
  simpa [Module.byte, Nat.add_assoc] using this

/-- A pattern of wildcards makes the lambda on flat memory return `true`
whatever the bytes. -/
theorem compareLoopFlat_wildcards (mem : Memory) (Data : Nat) :
    ∀ (toks : List Nat) (i : Nat), (∀ t ∈ toks, t = 256) →
      compareLoopFlat mem Data i toks = true := by
  intro toks
  induction toks with
  | nil => intro i _; rfl
  | cons tok rest ih =>
    intro i h
    have ht : tok = 256 := h tok (by simp)
    have hrec := ih (i + 1) (fun t ht => h t (by simp [ht]))
    rw [compareLoopFlat]
    simp only [ht, ne_eq, not_true_eq_false, if_false, hrec, ite_self]

/-- A pattern of wildcards longer than the distance from address `0` to the
end of the image is found at the base on flat memory: the loop bound has
wrapped around and the lambda reads beyond the image. -/
theorem FindPatternFlat_wrap_wildcards (M : Module) (mem : Memory) (P : List Nat)
    (fuel : Nat) (hM : M.WellFormed) (h1 : M.m_ModuleBase + M.m_ModuleSize < P.length)
    (h2 : P.length < PTR_RANGE) (hw : ∀ t ∈ P, t = 256) :
    M.FindPatternFlat mem P (fuel + 1) = some M.m_ModuleBase := by
  obtain ⟨_, _, hR⟩ := hM
  have htest : M.m_ModuleBase ≤ scanLimit M P.length := by
    rw [scanLimit_wrap M _ hR h1 h2]; omega
  unfold Module.FindPatternFlat
  rw [scanLoopFlat, if_pos htest, compareLoopFlat_wildcards mem _ P 0 hw]
  rfl

/-! ## The claim about the pointer returned -/

/-- C2, at the failing input: on the 4096-byte image at `0x10000`, with zeros
in memory, `FindPattern` returns for the pattern of `0x11001` wildcards the
pointer `0x10000`, which is not `nullptr`, although the pattern is longer than
the image: the pointer does not lie in `[base, base + size - |P|]`, and the
bytes compared with the pattern reach beyond the image. -/
theorem FindPattern_returns_outside_range :
    lowModule.WellFormed ∧
      (∀ fuel, lowModule.FindPatternFlat zeroMemory longPattern (fuel + 1) = some 0x10000) ∧
      (0x10000 ≠ 0 ∧ lowModule.m_ModuleSize < longPattern.length) ∧
      ¬ (lowModule.m_ModuleBase ≤ 0x10000 ∧
        0x10000 + longPattern.length ≤ lowModule.m_ModuleBase + lowModule.m_ModuleSize) := by
  have hlen : longPattern.length = 0x11001 := List.length_replicate _ _
  refine ⟨by decide, ?_, ⟨by decide, by rw [hlen]; decide⟩, ?_⟩
  · intro fuel
    exact FindPatternFlat_wrap_wildcards lowModule zeroMemory longPattern fuel (by decide)
      (by rw [hlen]; decide) (by rw [hlen, PTR_RANGE_eq]; decide)
      (fun t ht => (List.mem_replicate.mp ht).2)
  · rw [hlen]
    decide

end FindPattern
